import Mathlib

/-!
Verification of the online triplet-mining training core of the
your-signature-ai repository (colab-training/src/training): the PK batch
sampler, the semi-hard and hard triplet miners, the EER/AUC metric stack,
the identity-disjoint user split, the checkpoint-on-improvement policy and
the non-finite-loss handling, embedded shallowly over rationals.
-/

namespace SigAI

/-! ## Shared helpers: first-occurrence argmin / argmax over rational lists

`torch.argmin` / `torch.argmax` on a 1-D tensor return the index of the
first minimal / maximal element. -/

/-- Auxiliary scan for `argminIdx`: `i` is the index of the head of `rest`,
`bi`/`bv` the best index and value so far; a strict improvement replaces
the best, so ties keep the earliest index. -/
def argminAux : ℕ → ℕ → ℚ → List ℚ → ℕ
  | _, bi, _, [] => bi
  | i, bi, bv, v :: rest =>
    if v < bv then argminAux (i + 1) i v rest else argminAux (i + 1) bi bv rest

/-- Index of the first minimal element (`torch.argmin` on a 1-D tensor);
`0` on the empty list, which the embedded code never queries. -/
def argminIdx : List ℚ → ℕ
  | [] => 0
  | v :: rest => argminAux 1 0 v rest

/-- Auxiliary scan for `argmaxIdx`, mirroring `argminAux`. -/
def argmaxAux : ℕ → ℕ → ℚ → List ℚ → ℕ
  | _, bi, _, [] => bi
  | i, bi, bv, v :: rest =>
    if bv < v then argmaxAux (i + 1) i v rest else argmaxAux (i + 1) bi bv rest

/-- Index of the first maximal element (`torch.argmax` on a 1-D tensor). -/
def argmaxIdx : List ℚ → ℕ
  | [] => 0
  | v :: rest => argmaxAux 1 0 v rest

/-- Binary maximum on ℚ, written so that the kernel can evaluate it. -/
def maxQ (a b : ℚ) : ℚ := if a ≤ b then b else a

theorem maxQ_def : maxQ = (max : ℚ → ℚ → ℚ) := by
  funext a b
  unfold maxQ
  split
  · next h => exact (max_eq_right h).symm
  · next h => exact (max_eq_left (le_of_not_le h)).symm

/-- Maximum of a rational list (`Tensor.max` of a nonempty tensor);
`0` on the empty list, never queried by the embedded code. -/
def maxList : List ℚ → ℚ
  | [] => 0
  | v :: rest => rest.foldl maxQ v

/-- Case analysis for `argminAux`: it either keeps the running best index
with the running best value minimal among the rest, or it lands on an
offset `k` into the rest whose value undercuts the running best and is
minimal among the rest. -/
theorem argminAux_spec (rest : List ℚ) : ∀ (i bi : ℕ) (bv : ℚ),
    (argminAux i bi bv rest = bi ∧ ∀ x ∈ rest, bv ≤ x) ∨
    (∃ k, k < rest.length ∧ argminAux i bi bv rest = i + k ∧
      rest.getD k 0 ≤ bv ∧ ∀ x ∈ rest, rest.getD k 0 ≤ x) := by
  induction rest with
  | nil => intro i bi bv; left; simp [argminAux]
  | cons v rest ih =>
    intro i bi bv
    simp only [argminAux]
    by_cases hv : v < bv
    · right
      rcases ih (i + 1) i v with ⟨heq, hmin⟩ | ⟨k, hk, heq, hle, hmin⟩
      · refine ⟨0, by simp, by simpa [hv] using heq, by simpa using le_of_lt hv, ?_⟩
        intro x hx
        rcases List.mem_cons.mp hx with hx | hx
        · simp [hx]
        · simpa using hmin x hx
      · refine ⟨k + 1, by simpa using hk, ?_, ?_, ?_⟩
        · rw [if_pos hv, heq]; omega
        · simpa using le_trans hle (le_of_lt hv)
        · intro x hx
          rcases List.mem_cons.mp hx with hx | hx
          · simpa [hx] using hle
          · simpa using hmin x hx
    · rcases ih (i + 1) bi bv with ⟨heq, hmin⟩ | ⟨k, hk, heq, hle, hmin⟩
      · left
        refine ⟨by simp [hv, heq], ?_⟩
        intro x hx
        rcases List.mem_cons.mp hx with hx | hx
        · exact hx ▸ not_lt.mp hv
        · exact hmin x hx
      · right
        refine ⟨k + 1, by simpa using hk, ?_, ?_, ?_⟩
        · rw [if_neg hv, heq]; omega
        · simpa using hle
        · intro x hx
          rcases List.mem_cons.mp hx with hx | hx
          · simpa [hx] using le_trans hle (not_lt.mp hv)
          · simpa using hmin x hx

/-- `argminIdx` is in range and points at a minimum. -/
theorem argminIdx_spec (l : List ℚ) (h : l ≠ []) :
    argminIdx l < l.length ∧ ∀ x ∈ l, l.getD (argminIdx l) 0 ≤ x := by
  cases l with
  | nil => exact absurd rfl h
  | cons v rest =>
    rcases argminAux_spec rest 1 0 v with ⟨heq, hmin⟩ | ⟨k, hk, heq, hle, hmin⟩
    · refine ⟨by simp [argminIdx, heq], ?_⟩
      intro x hx
      rcases List.mem_cons.mp hx with hx | hx
      · simp [argminIdx, heq, hx]
      · simpa [argminIdx, heq] using hmin x hx
    · have hidx : argminIdx (v :: rest) = k + 1 := by
        simp [argminIdx, heq, Nat.add_comm]
      refine ⟨by simpa [hidx] using Nat.succ_lt_succ hk, ?_⟩
      intro x hx
      rcases List.mem_cons.mp hx with hx | hx
      · simpa [hidx, hx] using hle
      · simpa [hidx] using hmin x hx

/-- Case analysis for `argmaxAux`, mirroring `argminAux_spec`. -/
theorem argmaxAux_spec (rest : List ℚ) : ∀ (i bi : ℕ) (bv : ℚ),
    (argmaxAux i bi bv rest = bi ∧ ∀ x ∈ rest, x ≤ bv) ∨
    (∃ k, k < rest.length ∧ argmaxAux i bi bv rest = i + k ∧
      bv ≤ rest.getD k 0 ∧ ∀ x ∈ rest, x ≤ rest.getD k 0) := by
  induction rest with
  | nil => intro i bi bv; left; simp [argmaxAux]
  | cons v rest ih =>
    intro i bi bv
    simp only [argmaxAux]
    by_cases hv : bv < v
    · right
      rcases ih (i + 1) i v with ⟨heq, hmin⟩ | ⟨k, hk, heq, hle, hmin⟩
      · refine ⟨0, by simp, by simpa [hv] using heq, by simpa using le_of_lt hv, ?_⟩
        intro x hx
        rcases List.mem_cons.mp hx with hx | hx
        · simp [hx]
        · simpa using hmin x hx
      · refine ⟨k + 1, by simpa using hk, ?_, ?_, ?_⟩
        · rw [if_pos hv, heq]; omega
        · simpa using le_trans (le_of_lt hv) hle
        · intro x hx
          rcases List.mem_cons.mp hx with hx | hx
          · simpa [hx] using hle
          · simpa using hmin x hx
    · rcases ih (i + 1) bi bv with ⟨heq, hmin⟩ | ⟨k, hk, heq, hle, hmin⟩
      · left
        refine ⟨by simp [hv, heq], ?_⟩
        intro x hx
        rcases List.mem_cons.mp hx with hx | hx
        · exact hx ▸ not_lt.mp hv
        · exact hmin x hx
      · right
        refine ⟨k + 1, by simpa using hk, ?_, ?_, ?_⟩
        · rw [if_neg hv, heq]; omega
        · simpa using hle
        · intro x hx
          rcases List.mem_cons.mp hx with hx | hx
          · simpa [hx] using le_trans (not_lt.mp hv) hle
          · simpa using hmin x hx

/-- `argmaxIdx` is in range and points at a maximum. -/
theorem argmaxIdx_spec (l : List ℚ) (h : l ≠ []) :
    argmaxIdx l < l.length ∧ ∀ x ∈ l, x ≤ l.getD (argmaxIdx l) 0 := by
  cases l with
  | nil => exact absurd rfl h
  | cons v rest =>
    rcases argmaxAux_spec rest 1 0 v with ⟨heq, hmin⟩ | ⟨k, hk, heq, hle, hmin⟩
    · refine ⟨by simp [argmaxIdx, heq], ?_⟩
      intro x hx
      rcases List.mem_cons.mp hx with hx | hx
      · simp [argmaxIdx, heq, hx]
      · simpa [argmaxIdx, heq] using hmin x hx
    · have hidx : argmaxIdx (v :: rest) = k + 1 := by
        simp [argmaxIdx, heq, Nat.add_comm]
      refine ⟨by simpa [hidx] using Nat.succ_lt_succ hk, ?_⟩
      intro x hx
      rcases List.mem_cons.mp hx with hx | hx
      · simpa [hidx, hx] using hle
      · simpa [hidx] using hmin x hx

theorem foldl_max_bounds (rest : List ℚ) : ∀ (acc : ℚ),
    acc ≤ rest.foldl max acc ∧ ∀ x ∈ rest, x ≤ rest.foldl max acc := by
  induction rest with
  | nil => intro acc; simp
  | cons w rest ih =>
    intro acc
    simp only [List.foldl_cons]
    refine ⟨le_trans (le_max_left acc w) (ih (max acc w)).1, ?_⟩
    intro x hx
    rcases List.mem_cons.mp hx with hx | hx
    · subst hx; exact le_trans (le_max_right acc x) (ih (max acc x)).1
    · exact (ih (max acc w)).2 x hx

theorem foldl_max_mem (rest : List ℚ) : ∀ (acc : ℚ),
    rest.foldl max acc = acc ∨ rest.foldl max acc ∈ rest := by
  induction rest with
  | nil => intro acc; left; rfl
  | cons w rest ih =>
    intro acc
    rcases ih (max acc w) with hh | hh
    · rcases max_choice acc w with hm | hm
      · left; rw [List.foldl_cons, hh, hm]
      · right; rw [List.foldl_cons, hh, hm]; exact List.mem_cons_self _ _
    · right; rw [List.foldl_cons]; exact List.mem_cons_of_mem _ hh

theorem maxList_cons (v : ℚ) (rest : List ℚ) :
    maxList (v :: rest) = rest.foldl max v := by
  rw [maxList, maxQ_def]

/-- `maxList` bounds every element of the list. -/
theorem le_maxList (l : List ℚ) : ∀ x ∈ l, x ≤ maxList l := by
  cases l with
  | nil => intro x hx; cases hx
  | cons v rest =>
    intro x hx
    rcases List.mem_cons.mp hx with hx | hx
    · simpa [maxList_cons, hx] using (foldl_max_bounds rest v).1
    · simpa [maxList_cons] using (foldl_max_bounds rest v).2 x hx

/-- `maxList` of a nonempty list is one of its elements. -/
theorem maxList_mem (l : List ℚ) (h : l ≠ []) : maxList l ∈ l := by
  cases l with
  | nil => exact absurd rfl h
  | cons v rest =>
    rw [maxList_cons]
    rcases foldl_max_mem rest v with hv | hv
    · rw [hv]; exact List.mem_cons_self _ _
    · exact List.mem_cons_of_mem _ hv

/-! ## Triplet miners (src/colab-training/src/training/miners.py)

Both miners compute `dist = torch.cdist(emb, emb, p=2)` and then work only
with the distance matrix, the labels, and optional per-sample lengths, so
they are embedded over an arbitrary distance function `dist : ℕ → ℕ → ℚ`
together with the 1-dimensional instance `cdist1` used to evaluate them on
concrete batches. -/

/-- A mined `(anchor, positive, negative)` index triple. -/
structure Triplet where
  a : ℕ
  p : ℕ
  n : ℕ
deriving DecidableEq, Repr

/-- Absolute value on ℚ, written so that the kernel can evaluate it. -/
def absQ (x : ℚ) : ℚ := if x < 0 then -x else x

theorem absQ_eq_abs (x : ℚ) : absQ x = |x| := by
  unfold absQ
  split
  · next h => exact (abs_of_neg h).symm
  · next h => exact (abs_of_nonneg (not_lt.mp h)).symm

/-- Addition on ℚ, written so that the kernel can evaluate it. -/
def addQ (a b : ℚ) : ℚ := mkRat (a.num * b.den + b.num * a.den) (a.den * b.den)

theorem addQ_eq (a b : ℚ) : addQ a b = a + b := (Rat.add_def' a b).symm

/-- Subtraction on ℚ, written so that the kernel can evaluate it. -/
def subQ (a b : ℚ) : ℚ := mkRat (a.num * b.den - b.num * a.den) (a.den * b.den)

theorem subQ_eq (a b : ℚ) : subQ a b = a - b := (Rat.sub_def' a b).symm

/-- Multiplication on ℚ, written so that the kernel can evaluate it. -/
def mulQ (a b : ℚ) : ℚ := mkRat (a.num * b.num) (a.den * b.den)

theorem mulQ_eq (a b : ℚ) : mulQ a b = a * b := by
  rw [Rat.mul_def, Rat.normalize_eq_mkRat, mulQ]

theorem subQ_self (a : ℚ) : subQ a a = 0 := by rw [subQ_eq, sub_self]

theorem absQ_zero : absQ 0 = 0 := by rw [absQ_eq_abs, abs_zero]

/-- `torch.cdist(emb, emb, p=2)` specialised to 1-dimensional embeddings:
the Euclidean distance between scalars is the absolute difference. -/
def cdist1 (emb : List ℚ) (i j : ℕ) : ℚ := absQ (subQ (emb.getD i 0) (emb.getD j 0))

theorem cdist1_self (emb : List ℚ) (j : ℕ) : cdist1 emb j j = 0 := by
  rw [cdist1, subQ_self, absQ_zero]

/-- Length filter on negative candidates (miners.py lines 39-42 / 98-101):
when both `lengths` and `length_tolerance_ratio` are configured, negative
`j` is kept only if `|lengths[j] - lengths[i]| <= max(1, ratio*lengths[i])`. -/
def negLenOk (lengths : Option (List ℚ)) (tolFactor : Option ℚ) (i j : ℕ) : Bool :=
  match lengths, tolFactor with
  | some ls, some r => decide (absQ (subQ (ls.getD j 0) (ls.getD i 0)) ≤ maxQ 1 (mulQ r (ls.getD i 0)))
  | _, _ => true

/-- `mask_pos` as an index list: positions `j` with `labels[j] == labels[i]`
(the anchor itself included, exactly as in the source). -/
def posIdxOf (labels : List ℤ) (i : ℕ) : List ℕ :=
  (List.range labels.length).filter (fun j => decide (labels.getD j 0 = labels.getD i 0))

/-- `mask_neg` as an index list: positions `j` with `labels[j] != labels[i]`,
optionally restricted by the length-tolerance filter. -/
def negIdxOf (labels : List ℤ) (lengths : Option (List ℚ)) (tolFactor : Option ℚ)
    (i : ℕ) : List ℕ :=
  (List.range labels.length).filter
    (fun j => decide (labels.getD j 0 ≠ labels.getD i 0) && negLenOk lengths tolFactor i j)

/-- Anchor-positive distance `ap_dist = pos_dist.max()`: the maximal
same-identity distance from anchor `i`. -/
def apDistOf (dist : ℕ → ℕ → ℚ) (labels : List ℤ) (i : ℕ) : ℚ :=
  maxList ((posIdxOf labels i).map (dist i))

/-- The per-anchor positive distance row `pos_dist = dist[i][mask_pos]`. -/
def posDistOf (dist : ℕ → ℕ → ℚ) (labels : List ℤ) (i : ℕ) : List ℚ :=
  (posIdxOf labels i).map (dist i)

/-- The per-anchor negative distance row `neg_dist = dist[i][mask_neg]`. -/
def negDistOf (dist : ℕ → ℕ → ℚ) (labels : List ℤ) (lengths : Option (List ℚ))
    (tolFactor : Option ℚ) (i : ℕ) : List ℚ :=
  (negIdxOf labels lengths tolFactor i).map (dist i)

namespace SemiHardMiner

/-- `valid_negs = neg_dist[(neg_dist < ap_dist + margin) & (neg_dist > ap_dist)]`
(miners.py line 49): the negative distances strictly inside the semi-hard
band. -/
def validNegs (dist : ℕ → ℕ → ℚ) (labels : List ℤ) (lengths : Option (List ℚ))
    (tolFactor : Option ℚ) (margin : ℚ) (i : ℕ) : List ℚ :=
  (negDistOf dist labels lengths tolFactor i).filter
    (fun d => decide (d < addQ (apDistOf dist labels i) margin ∧ apDistOf dist labels i < d))

/-- `neg_choice` (miners.py lines 50-54): `argmin` over all negative
distances when the band is empty, otherwise `argmin` over the *filtered*
band array. -/
def negChoice (dist : ℕ → ℕ → ℚ) (labels : List ℤ) (lengths : Option (List ℚ))
    (tolFactor : Option ℚ) (margin : ℚ) (i : ℕ) : ℕ :=
  if (validNegs dist labels lengths tolFactor margin i).length = 0 then
    argminIdx (negDistOf dist labels lengths tolFactor i)
  else
    argminIdx (validNegs dist labels lengths tolFactor margin i)

/-- One iteration of the anchor loop of `SemiHardMiner.__call__`
(miners.py lines 36-62): skip the anchor when the positive pool has fewer
than two entries or the negative pool is empty; otherwise the positive is
`arange(B)[mask_pos][argmax(pos_dist)]` and the negative is
`arange(B)[mask_neg][neg_choice]` — the source indexes the *unfiltered*
negative pool with `neg_choice` even when `neg_choice` is a position
inside the filtered band array. -/
def anchor (dist : ℕ → ℕ → ℚ) (labels : List ℤ) (lengths : Option (List ℚ))
    (tolFactor : Option ℚ) (margin : ℚ) (i : ℕ) : Option Triplet :=
  if (posDistOf dist labels i).length < 2 ∨
      (negDistOf dist labels lengths tolFactor i).length = 0 then none
  else
    some ⟨i, (posIdxOf labels i).getD (argmaxIdx (posDistOf dist labels i)) 0,
      (negIdxOf labels lengths tolFactor i).getD
        (negChoice dist labels lengths tolFactor margin i) 0⟩

/-- `SemiHardMiner.__call__`: the anchor loop over `i in range(B)`,
collecting the emitted triplets in anchor order. -/
def call (dist : ℕ → ℕ → ℚ) (labels : List ℤ) (lengths : Option (List ℚ))
    (tolFactor : Option ℚ) (margin : ℚ) : List Triplet :=
  (List.range labels.length).filterMap (anchor dist labels lengths tolFactor margin)

end SemiHardMiner

namespace HardMiner

/-- One iteration of the anchor loop of `HardMiner.__call__` (miners.py
lines 95-110): farthest positive, globally nearest negative. -/
def anchor (dist : ℕ → ℕ → ℚ) (labels : List ℤ) (lengths : Option (List ℚ))
    (tolFactor : Option ℚ) (i : ℕ) : Option Triplet :=
  if (posDistOf dist labels i).length < 2 ∨
      (negDistOf dist labels lengths tolFactor i).length = 0 then none
  else
    some ⟨i, (posIdxOf labels i).getD (argmaxIdx (posDistOf dist labels i)) 0,
      (negIdxOf labels lengths tolFactor i).getD
        (argminIdx (negDistOf dist labels lengths tolFactor i)) 0⟩

/-- `HardMiner.__call__`: the anchor loop over `i in range(B)` (the
configured margin is stored but unused by this strategy). -/
def call (dist : ℕ → ℕ → ℚ) (labels : List ℤ) (lengths : Option (List ℚ))
    (tolFactor : Option ℚ) : List Triplet :=
  (List.range labels.length).filterMap (anchor dist labels lengths tolFactor)

end HardMiner

theorem mem_posIdxOf {labels : List ℤ} {i j : ℕ} :
    j ∈ posIdxOf labels i ↔ j < labels.length ∧ labels.getD j 0 = labels.getD i 0 := by
  simp [posIdxOf, List.mem_filter]

theorem mem_negIdxOf {labels : List ℤ} {lengths : Option (List ℚ)}
    {tolFactor : Option ℚ} {i j : ℕ} (h : j ∈ negIdxOf labels lengths tolFactor i) :
    j < labels.length ∧ labels.getD j 0 ≠ labels.getD i 0 := by
  have := List.mem_filter.mp h
  refine ⟨by simpa using this.1, ?_⟩
  have hb := this.2
  rw [Bool.and_eq_true] at hb
  simpa using hb.1

/-- Indexing a list with `getD` at an in-range position yields a member. -/
theorem getD_mem_of_lt {l : List ℕ} {k : ℕ} (h : k < l.length) : l.getD k 0 ∈ l := by
  rw [List.getD_eq_getElem _ _ h]
  exact List.getElem_mem h

/-- `getD` through `map` at an in-range position. -/
theorem getD_map_eq {l : List ℕ} {f : ℕ → ℚ} {k : ℕ} (h : k < l.length) :
    (l.map f).getD k 0 = f (l.getD k 0) := by
  rw [List.getD_eq_getElem _ _ (by simpa using h), List.getD_eq_getElem _ _ h]
  simp

/-- Characterisation of an emitted semi-hard triplet: the anchor is `i`,
the positive is a same-identity index at maximal distance, and the
negative is drawn from the negative pool. -/
theorem SemiHardMiner.semiHardAnchor_spec {dist : ℕ → ℕ → ℚ} {labels : List ℤ}
    {lengths : Option (List ℚ)} {tolFactor : Option ℚ} {margin : ℚ} {i : ℕ}
    {t : Triplet} (h : SemiHardMiner.anchor dist labels lengths tolFactor margin i = some t) :
    t.a = i ∧ t.p ∈ posIdxOf labels i ∧
    (∀ j ∈ posIdxOf labels i, dist i j ≤ dist i t.p) ∧
    t.n ∈ negIdxOf labels lengths tolFactor i := by
  unfold SemiHardMiner.anchor at h
  split at h
  · cases h
  · next hcond =>
    push_neg at hcond
    obtain ⟨hpos2, hnegne⟩ := hcond
    have hposne : posDistOf dist labels i ≠ [] := by
      intro hnil; rw [hnil] at hpos2; simp at hpos2
    have hposlen : (posIdxOf labels i).length = (posDistOf dist labels i).length := by
      simp [posDistOf]
    obtain ⟨hmaxlt, hmax⟩ := argmaxIdx_spec _ hposne
    have hplt : argmaxIdx (posDistOf dist labels i) < (posIdxOf labels i).length := by
      omega
    have hneglen : (negIdxOf labels lengths tolFactor i).length
        = (negDistOf dist labels lengths tolFactor i).length := by
      simp [negDistOf]
    have hnlt : SemiHardMiner.negChoice dist labels lengths tolFactor margin i
        < (negIdxOf labels lengths tolFactor i).length := by
      unfold SemiHardMiner.negChoice
      split
      · rw [hneglen]
        exact (argminIdx_spec _ (by intro hnil; rw [hnil] at hnegne; simp at hnegne)).1
      · next hvne =>
        have h1 : argminIdx (SemiHardMiner.validNegs dist labels lengths tolFactor margin i)
            < (SemiHardMiner.validNegs dist labels lengths tolFactor margin i).length :=
          (argminIdx_spec _ (by
            intro hnil; rw [hnil] at hvne; simp at hvne)).1
        have h2 : (SemiHardMiner.validNegs dist labels lengths tolFactor margin i).length
            ≤ (negDistOf dist labels lengths tolFactor i).length :=
          List.length_filter_le _ _
        omega
    injection h with h
    subst h
    refine ⟨rfl, getD_mem_of_lt hplt, ?_, getD_mem_of_lt hnlt⟩
    intro j hj
    have : dist i j ∈ posDistOf dist labels i := by
      simp only [posDistOf]
      exact List.mem_map_of_mem _ hj
    have hb := hmax _ this
    have hplt2 := hplt
    simp only [posDistOf] at hb hplt2
    rw [getD_map_eq hplt2] at hb
    exact hb

/-- Characterisation of an emitted hard triplet: the anchor is `i`, the
positive is a same-identity index at maximal distance, and the negative is
a negative-pool index at minimal distance. -/
theorem HardMiner.hardAnchor_spec {dist : ℕ → ℕ → ℚ} {labels : List ℤ}
    {lengths : Option (List ℚ)} {tolFactor : Option ℚ} {i : ℕ}
    {t : Triplet} (h : HardMiner.anchor dist labels lengths tolFactor i = some t) :
    t.a = i ∧ t.p ∈ posIdxOf labels i ∧
    (∀ j ∈ posIdxOf labels i, dist i j ≤ dist i t.p) ∧
    t.n ∈ negIdxOf labels lengths tolFactor i ∧
    (∀ j ∈ negIdxOf labels lengths tolFactor i, dist i t.n ≤ dist i j) := by
  unfold HardMiner.anchor at h
  split at h
  · cases h
  · next hcond =>
    push_neg at hcond
    obtain ⟨hpos2, hnegne⟩ := hcond
    have hposne : posDistOf dist labels i ≠ [] := by
      intro hnil; rw [hnil] at hpos2; simp at hpos2
    have hnegne' : negDistOf dist labels lengths tolFactor i ≠ [] := by
      intro hnil; rw [hnil] at hnegne; simp at hnegne
    obtain ⟨hmaxlt, hmax⟩ := argmaxIdx_spec _ hposne
    obtain ⟨hminlt, hmin⟩ := argminIdx_spec _ hnegne'
    have hplt : argmaxIdx (posDistOf dist labels i) < (posIdxOf labels i).length := by
      have : (posIdxOf labels i).length = (posDistOf dist labels i).length := by
        simp [posDistOf]
      omega
    have hnlt : argminIdx (negDistOf dist labels lengths tolFactor i)
        < (negIdxOf labels lengths tolFactor i).length := by
      have : (negIdxOf labels lengths tolFactor i).length
          = (negDistOf dist labels lengths tolFactor i).length := by
        simp [negDistOf]
      omega
    injection h with h
    subst h
    refine ⟨rfl, getD_mem_of_lt hplt, ?_, getD_mem_of_lt hnlt, ?_⟩
    · intro j hj
      have : dist i j ∈ posDistOf dist labels i := by
        simp only [posDistOf]
        exact List.mem_map_of_mem _ hj
      have hb := hmax _ this
      have hplt2 := hplt
      simp only [posDistOf] at hb hplt2
      rw [getD_map_eq hplt2] at hb
      exact hb
    · intro j hj
      have : dist i j ∈ negDistOf dist labels lengths tolFactor i := by
        simp only [negDistOf]
        exact List.mem_map_of_mem _ hj
      have hb := hmin _ this
      have hnlt2 := hnlt
      simp only [negDistOf] at hb hnlt2
      rw [getD_map_eq hnlt2] at hb
      exact hb

/-- C3 counterexample: on the batch with 1-D embeddings `[0, 0, 1]` and
labels `[0, 0, 1]` the hard miner returns the triplet `(0, 0, 2)` for
anchor `0`: when every same-identity sample sits at distance `0` from the
anchor, `argmax(pos_dist)` lands on the anchor itself, so `a = p` and the
claimed pairwise distinctness `a ≠ p` fails. -/
theorem hardMiner_anchor_equals_positive :
    (⟨0, 0, 2⟩ : Triplet) ∈ HardMiner.call (cdist1 [0, 0, 1]) [0, 0, 1] none none ∧
    (⟨0, 0, 2⟩ : Triplet).a = (⟨0, 0, 2⟩ : Triplet).p := by
  decide

/-- C3 (amended): every triplet returned by `SemiHardMiner.__call__` or
`HardMiner.__call__` satisfies `label[a] == label[p]`, `label[a] != label[n]`,
`a ≠ n`, `p ≠ n`, all indices in range, and `p` is a same-identity index at
maximal distance from `a`; moreover `a ≠ p` whenever that maximal distance
is positive — but `a = p` is possible when all same-identity samples are at
distance zero from the anchor (`dist` is assumed to have a zero diagonal,
as `torch.cdist` guarantees). -/
theorem miner_triplet_validity {dist : ℕ → ℕ → ℚ} {labels : List ℤ}
    {lengths : Option (List ℚ)} {tolFactor : Option ℚ} {margin : ℚ} {t : Triplet}
    (hdiag : ∀ j, dist j j = 0)
    (ht : t ∈ SemiHardMiner.call dist labels lengths tolFactor margin ∨
          t ∈ HardMiner.call dist labels lengths tolFactor) :
    labels.getD t.a 0 = labels.getD t.p 0 ∧
    labels.getD t.a 0 ≠ labels.getD t.n 0 ∧
    t.a ≠ t.n ∧ t.p ≠ t.n ∧
    t.a < labels.length ∧ t.p < labels.length ∧ t.n < labels.length ∧
    (∀ j < labels.length, labels.getD j 0 = labels.getD t.a 0 →
      dist t.a j ≤ dist t.a t.p) ∧
    (0 < dist t.a t.p → t.a ≠ t.p) := by
  have hkey : t.a < labels.length ∧ t.p ∈ posIdxOf labels t.a ∧
      (∀ j ∈ posIdxOf labels t.a, dist t.a j ≤ dist t.a t.p) ∧
      t.n ∈ negIdxOf labels lengths tolFactor t.a := by
    rcases ht with ht | ht
    · obtain ⟨i, hi, hanchor⟩ := List.mem_filterMap.mp ht
      obtain ⟨ha, hp, hmax, hn⟩ := SemiHardMiner.semiHardAnchor_spec hanchor
      subst ha
      exact ⟨List.mem_range.mp hi, hp, hmax, hn⟩
    · obtain ⟨i, hi, hanchor⟩ := List.mem_filterMap.mp ht
      obtain ⟨ha, hp, hmax, hn, _⟩ := HardMiner.hardAnchor_spec hanchor
      subst ha
      exact ⟨List.mem_range.mp hi, hp, hmax, hn⟩
  obtain ⟨halt, hp, hmax, hn⟩ := hkey
  obtain ⟨hplt, hplab⟩ := mem_posIdxOf.mp hp
  obtain ⟨hnlt, hnlab⟩ := mem_negIdxOf hn
  refine ⟨hplab.symm, fun hc => hnlab hc.symm, ?_, ?_, halt, hplt, hnlt, ?_, ?_⟩
  · intro hc; exact hnlab (hc ▸ rfl)
  · intro hc; exact hnlab (by rw [← hc, hplab])
  · intro j hj hlab
    exact hmax j (mem_posIdxOf.mpr ⟨hj, hlab⟩)
  · intro hpos hc
    rw [hc, hdiag] at hpos
    exact lt_irrefl 0 hpos

/-- Witness for `miner_triplet_validity` at a concrete batch: the hard
miner on 1-D embeddings `[0, 1, 5]` with labels `[0, 0, 7]` returns the
triplet `(0, 1, 2)`, whose anchor differs from its negative. -/
theorem miner_triplet_validity_witness :
    (⟨0, 1, 2⟩ : Triplet).a ≠ (⟨0, 1, 2⟩ : Triplet).n :=
  (@miner_triplet_validity (cdist1 [0, 1, 5]) [0, 0, 7] none none 1 ⟨0, 1, 2⟩
    (cdist1_self [0, 1, 5]) (Or.inr (by decide))).2.2.1

/-- C6: when no negative candidate lies strictly inside the semi-hard band
`(d_ap, d_ap + margin)`, the negative returned by `SemiHardMiner.__call__`
is a negative-pool index at globally minimal distance from the anchor
(the fallback `argmin(neg_dist)` of miners.py line 52). -/
theorem semiHard_fallback_nearest {dist : ℕ → ℕ → ℚ} {labels : List ℤ}
    {lengths : Option (List ℚ)} {tolFactor : Option ℚ} {margin : ℚ} {t : Triplet}
    (ht : t ∈ SemiHardMiner.call dist labels lengths tolFactor margin)
    (hnoband : ∀ j ∈ negIdxOf labels lengths tolFactor t.a,
      ¬(dist t.a j < apDistOf dist labels t.a + margin ∧
        apDistOf dist labels t.a < dist t.a j)) :
    t.n ∈ negIdxOf labels lengths tolFactor t.a ∧
    ∀ j ∈ negIdxOf labels lengths tolFactor t.a, dist t.a t.n ≤ dist t.a j := by
  obtain ⟨i, hi, hanchor⟩ := List.mem_filterMap.mp ht
  have ha : t.a = i := (SemiHardMiner.semiHardAnchor_spec hanchor).1
  subst ha
  unfold SemiHardMiner.anchor at hanchor
  split at hanchor
  · cases hanchor
  · next hcond =>
    push_neg at hcond
    have hnegne : negDistOf dist labels lengths tolFactor t.a ≠ [] := by
      intro hnil; rw [hnil] at hcond; simp at hcond
    have hvalid : SemiHardMiner.validNegs dist labels lengths tolFactor margin t.a = [] := by
      apply List.filter_eq_nil_iff.mpr
      intro d hd
      simp only [negDistOf] at hd
      obtain ⟨j, hj, hdj⟩ := List.mem_map.mp hd
      subst hdj
      simpa [addQ_eq] using hnoband j hj
    have hchoice : SemiHardMiner.negChoice dist labels lengths tolFactor margin t.a
        = argminIdx (negDistOf dist labels lengths tolFactor t.a) := by
      unfold SemiHardMiner.negChoice
      rw [hvalid]
      simp
    obtain ⟨hminlt, hmin⟩ := argminIdx_spec _ hnegne
    have hnlt : argminIdx (negDistOf dist labels lengths tolFactor t.a)
        < (negIdxOf labels lengths tolFactor t.a).length := by
      have : (negIdxOf labels lengths tolFactor t.a).length
          = (negDistOf dist labels lengths tolFactor t.a).length := by
        simp [negDistOf]
      omega
    have htn : t.n = (negIdxOf labels lengths tolFactor t.a).getD
        (argminIdx (negDistOf dist labels lengths tolFactor t.a)) 0 := by
      have := hanchor
      injection this with h
      rw [← h, hchoice]
    refine ⟨htn ▸ getD_mem_of_lt hnlt, ?_⟩
    intro j hj
    have : dist t.a j ∈ negDistOf dist labels lengths tolFactor t.a := by
      simp only [negDistOf]
      exact List.mem_map_of_mem _ hj
    have hb := hmin _ this
    have hnlt2 := hnlt
    simp only [negDistOf] at hb hnlt2
    rw [getD_map_eq hnlt2] at hb
    rw [htn]
    simp only [negDistOf]
    exact hb

/-- Witness for `semiHard_fallback_nearest`: on the batch with 1-D
embeddings `[0, 4, 1, 6]` and labels `[0, 0, 1, 1]` with margin `4`,
anchor `1` finds no negative in its band `(4, 8)` (its negative distances
are `3` and `2`) and falls back to the nearest negative, index `3`. -/
theorem semiHard_fallback_nearest_witness :
    (⟨1, 0, 3⟩ : Triplet).n ∈ negIdxOf [0, 0, 1, 1] none none 1 :=
  (@semiHard_fallback_nearest (cdist1 [0, 4, 1, 6]) [0, 0, 1, 1] none none 4
    ⟨1, 0, 3⟩ (by decide) (by simp only [← addQ_eq]; decide)).1

/-- C1: the semi-hard band selection is mis-indexed. On the batch with 1-D
embeddings `[0, 4, 1, 6]`, labels `[0, 0, 1, 1]` and margin `4`, anchor
`0` has `d_ap = 4`, and negative index `3` (distance `6`) lies strictly
inside the band `(4, 8)`; yet the miner returns negative index `2`, whose
distance `1` is outside the band, because `argmin(valid_negs)` — a
position inside the filtered band array — is used to index the unfiltered
negative pool `arange(B)[mask_neg]`. -/
theorem semiHard_band_mis_indexed :
    (SemiHardMiner.call (cdist1 [0, 4, 1, 6]) [0, 0, 1, 1] none none 4).head?
      = some ⟨0, 1, 2⟩ ∧
    apDistOf (cdist1 [0, 4, 1, 6]) [0, 0, 1, 1] 0 = 4 ∧
    3 ∈ negIdxOf [0, 0, 1, 1] none none 0 ∧
    cdist1 [0, 4, 1, 6] 0 3 = 6 ∧
    apDistOf (cdist1 [0, 4, 1, 6]) [0, 0, 1, 1] 0 < cdist1 [0, 4, 1, 6] 0 3 ∧
    cdist1 [0, 4, 1, 6] 0 3 < apDistOf (cdist1 [0, 4, 1, 6]) [0, 0, 1, 1] 0 + 4 ∧
    cdist1 [0, 4, 1, 6] 0 2 = 1 ∧
    ¬(apDistOf (cdist1 [0, 4, 1, 6]) [0, 0, 1, 1] 0 < cdist1 [0, 4, 1, 6] 0 2) := by
  simp only [← addQ_eq]
  decide

/-! ## PK sampler (src/colab-training/src/training/sampling.py)

`PKSampler.__init__` builds `label_to_indices` (a dict from user code to
the increasing list of sample indices with that label; `dict.setdefault`
preserves first-occurrence key order) and `identities = list(keys)`.
`__iter__` shuffles the identity list, walks it in groups of `P`, and for
each identity of a group draws `K` indices — `random.sample` without
replacement when the pool has at least `K` entries, the pool repeated
`ceil(K/len(pool))` times, truncated to `K` and shuffled otherwise. The
two random primitives enter the embedding as parameters: `ids` is the
shuffled identity list (a permutation of the identity keys), `samp` stands
for `random.sample` and `shuf` for `random.shuffle` on the expanded
pool. -/

/-- The identity keys in first-occurrence order. -/
def identitiesOf (labels : List String) : List String :=
  labels.foldl (fun acc lab => if lab ∈ acc then acc else acc ++ [lab]) []

/-- `label_to_indices[lab]`: the sample indices carrying label `lab`, in
increasing order. -/
def poolOf (labels : List String) (lab : String) : List ℕ :=
  (List.range labels.length).filter (fun idx => decide (labels.getD idx "" = lab))

/-- The grouping `ids[i : i+P]` for `i in range(0, len(ids), P)`
(`range` with step `0` raises in Python; the embedding is only ever used
with `P ≥ 1`). -/
def chunksOf (P : ℕ) (ids : List String) : List (List String) :=
  if ids = [] ∨ P = 0 then []
  else ids.take P :: chunksOf P (ids.drop P)
termination_by ids.length
decreasing_by
  next h =>
    push_neg at h
    have h1 : 0 < ids.length := List.length_pos.mpr h.1
    have h2 : 0 < P := Nat.pos_of_ne_zero h.2
    simp only [List.length_drop]
    omega

/-- The per-identity picks (sampling.py lines 38-46). -/
def pkPick (samp : List ℕ → ℕ → List ℕ) (shuf : List ℕ → List ℕ)
    (pool : List ℕ) (K : ℕ) : List ℕ :=
  if K ≤ pool.length then samp pool K
  else shuf (((List.replicate ((K + pool.length - 1) / pool.length) pool).flatten).take K)

/-- `PKSampler.__iter__`: one epoch of batches from the shuffled identity
list `ids`. -/
def pkBatches (labels : List String) (P K : ℕ) (ids : List String)
    (samp : List ℕ → ℕ → List ℕ) (shuf : List ℕ → List ℕ) : List (List ℕ) :=
  (chunksOf P ids).map
    (fun group => (group.map (fun g => pkPick samp shuf (poolOf labels g) K)).flatten)

/-- `PKSampler.__len__`: `(len(identities) + P - 1) // P`. -/
def pkLen (labels : List String) (P : ℕ) : ℕ :=
  ((identitiesOf labels).length + P - 1) / P

theorem identitiesOf_nodup (labels : List String) : (identitiesOf labels).Nodup := by
  suffices h : ∀ acc : List String, acc.Nodup →
      (labels.foldl (fun acc lab => if lab ∈ acc then acc else acc ++ [lab]) acc).Nodup by
    exact h [] List.nodup_nil
  induction labels with
  | nil => intro acc hacc; exact hacc
  | cons lab rest ih =>
    intro acc hacc
    simp only [List.foldl_cons]
    by_cases hmem : lab ∈ acc
    · rw [if_pos hmem]; exact ih acc hacc
    · rw [if_neg hmem]
      exact ih _ ((List.nodup_append_comm.mp (by simpa using hacc.cons hmem)))

theorem mem_identitiesOf {labels : List String} {g : String} :
    g ∈ identitiesOf labels ↔ g ∈ labels := by
  suffices h : ∀ acc : List String,
      (g ∈ labels.foldl (fun acc lab => if lab ∈ acc then acc else acc ++ [lab]) acc ↔
        g ∈ acc ∨ g ∈ labels) by
    simpa using h []
  induction labels with
  | nil => intro acc; simp
  | cons lab rest ih =>
    intro acc
    simp only [List.foldl_cons]
    by_cases hmem : lab ∈ acc
    · rw [if_pos hmem, ih acc]
      constructor
      · rintro (h | h)
        · exact Or.inl h
        · exact Or.inr (List.mem_cons_of_mem _ h)
      · rintro (h | h)
        · exact Or.inl h
        · rcases List.mem_cons.mp h with h | h
          · exact Or.inl (h ▸ hmem)
          · exact Or.inr h
    · rw [if_neg hmem, ih (acc ++ [lab])]
      simp only [List.mem_append, List.mem_singleton, List.mem_cons]
      tauto

theorem poolOf_nodup (labels : List String) (g : String) : (poolOf labels g).Nodup :=
  (List.nodup_range _).filter _

theorem mem_poolOf {labels : List String} {g : String} {idx : ℕ} :
    idx ∈ poolOf labels g ↔ idx < labels.length ∧ labels.getD idx "" = g := by
  simp [poolOf, List.mem_filter]

theorem poolOf_ne_nil {labels : List String} {g : String} (h : g ∈ labels) :
    poolOf labels g ≠ [] := by
  obtain ⟨k, hk, he⟩ := List.mem_iff_getElem.mp h
  intro hnil
  have hmem : k ∈ poolOf labels g :=
    mem_poolOf.mpr ⟨hk, by rw [List.getD_eq_getElem _ _ hk]; exact he⟩
  rw [hnil] at hmem
  cases hmem

theorem chunksOf_length (P : ℕ) (hP : 0 < P) (l : List String) :
    (chunksOf P l).length = (l.length + P - 1) / P := by
  suffices h : ∀ n (l : List String), l.length ≤ n →
      (chunksOf P l).length = (l.length + P - 1) / P by
    exact h l.length l le_rfl
  intro n
  induction n with
  | zero =>
    intro l hl
    have hnil : l = [] := List.eq_nil_of_length_eq_zero (Nat.le_zero.mp hl)
    subst hnil
    rw [chunksOf, if_pos (Or.inl rfl)]
    symm
    simp only [List.length_nil, Nat.zero_add]
    exact Nat.div_eq_of_lt (by omega)
  | succ n ih =>
    intro l hl
    by_cases hnil : l = []
    · subst hnil
      rw [chunksOf, if_pos (Or.inl rfl)]
      symm
      simp only [List.length_nil, Nat.zero_add]
      exact Nat.div_eq_of_lt (by omega)
    · have hcond : ¬(l = [] ∨ P = 0) := by push_neg; exact ⟨hnil, by omega⟩
      rw [chunksOf, if_neg hcond]
      have hlen : 0 < l.length := List.length_pos.mpr hnil
      have hdrop : (l.drop P).length = l.length - P := List.length_drop _ _
      have ihd := ih (l.drop P) (by rw [hdrop]; omega)
      rw [List.length_cons, ihd, hdrop]
      by_cases hcase : l.length ≤ P
      · have e1 : l.length - P = 0 := by omega
        rw [e1]
        have e2 : (0 + P - 1) / P = 0 := Nat.div_eq_of_lt (by omega)
        rw [e2]
        have e3 : l.length + P - 1 = (l.length - 1) + P := by omega
        rw [e3, Nat.add_div_right _ hP]
        have e4 : (l.length - 1) / P = 0 := Nat.div_eq_of_lt (by omega)
        rw [e4]
      · push_neg at hcase
        have e1 : l.length - P + P - 1 = (l.length - P - 1) + P := by omega
        have e2 : l.length + P - 1 = ((l.length - P - 1) + P) + P := by omega
        rw [e1, e2, Nat.add_div_right _ hP, Nat.add_div_right _ hP, Nat.add_div_right _ hP]

theorem chunksOf_sublist (P : ℕ) (l : List String) :
    ∀ G ∈ chunksOf P l, G.Sublist l := by
  suffices h : ∀ n (l : List String), l.length ≤ n → ∀ G ∈ chunksOf P l, G.Sublist l by
    exact h l.length l le_rfl
  intro n
  induction n with
  | zero =>
    intro l hl G hG
    have hnil : l = [] := List.eq_nil_of_length_eq_zero (Nat.le_zero.mp hl)
    subst hnil
    rw [chunksOf] at hG
    simp at hG
  | succ n ih =>
    intro l hl G hG
    rw [chunksOf] at hG
    by_cases hcond : l = [] ∨ P = 0
    · rw [if_pos hcond] at hG; cases hG
    · rw [if_neg hcond] at hG
      push_neg at hcond
      have hP : 0 < P := Nat.pos_of_ne_zero hcond.2
      have hlen : 0 < l.length := List.length_pos.mpr hcond.1
      rcases List.mem_cons.mp hG with hG | hG
      · exact hG ▸ List.take_sublist _ _
      · have hdroplen : (l.drop P).length ≤ n := by
          rw [List.length_drop]; omega
        exact (ih (l.drop P) hdroplen G hG).trans (List.drop_sublist _ _)

/-- All chunks except possibly the last have length exactly `P`. -/
theorem chunksOf_dropLast_length (P : ℕ) (l : List String) :
    ∀ G ∈ (chunksOf P l).dropLast, G.length = P := by
  suffices h : ∀ n (l : List String), l.length ≤ n →
      ∀ G ∈ (chunksOf P l).dropLast, G.length = P by
    exact h l.length l le_rfl
  intro n
  induction n with
  | zero =>
    intro l hl G hG
    have hnil : l = [] := List.eq_nil_of_length_eq_zero (Nat.le_zero.mp hl)
    subst hnil
    rw [chunksOf] at hG
    simp at hG
  | succ n ih =>
    intro l hl G hG
    rw [chunksOf] at hG
    by_cases hcond : l = [] ∨ P = 0
    · rw [if_pos hcond] at hG; cases hG
    · rw [if_neg hcond] at hG
      push_neg at hcond
      have hP : 0 < P := Nat.pos_of_ne_zero hcond.2
      by_cases hrest : chunksOf P (l.drop P) = []
      · rw [hrest] at hG
        simp at hG
      · rw [List.dropLast_cons_of_ne_nil hrest] at hG
        rcases List.mem_cons.mp hG with hG | hG
        · -- the head chunk is not last, so the remainder is nonempty: P < l.length
          have hdropne : l.drop P ≠ [] := by
            intro hnil
            rw [chunksOf, if_pos (Or.inl hnil)] at hrest
            exact hrest rfl
          have : P < l.length := by
            by_contra hle
            push_neg at hle
            exact hdropne (List.drop_eq_nil_of_le hle)
          rw [hG, List.length_take]
          omega
        · have hdroplen : (l.drop P).length ≤ n := by
            have hlen : 0 < l.length := List.length_pos.mpr hcond.1
            rw [List.length_drop]; omega
          exact ih (l.drop P) hdroplen G hG

/-- A pick always has length exactly `K` when the pool is nonempty. -/
theorem pkPick_length {samp : List ℕ → ℕ → List ℕ} {shuf : List ℕ → List ℕ}
    {pool : List ℕ} {K : ℕ} (hpool : pool ≠ [])
    (hsamp : ∀ k, k ≤ pool.length → (samp pool k).length = k)
    (hshuf : ∀ l : List ℕ, (shuf l).Perm l) :
    (pkPick samp shuf pool K).length = K := by
  unfold pkPick
  split
  · next h => exact hsamp K h
  · next h =>
    push_neg at h
    have hlen : 0 < pool.length := List.length_pos.mpr hpool
    rw [(hshuf _).length_eq, List.length_take, List.length_flatten,
      List.map_replicate, List.sum_replicate, smul_eq_mul]
    have hK1 : 1 ≤ K := by omega
    have e : K + pool.length - 1 = (K - 1) + pool.length := by omega
    rw [e, Nat.add_div_right _ hlen, Nat.add_mul, Nat.one_mul]
    have h1 : (K - 1) / pool.length * pool.length + (K - 1) % pool.length = K - 1 :=
      Nat.div_add_mod' _ _
    have h2 : (K - 1) % pool.length < pool.length := Nat.mod_lt _ hlen
    omega

/-- A pick draws only indices of its own pool. -/
theorem pkPick_mem {samp : List ℕ → ℕ → List ℕ} {shuf : List ℕ → List ℕ}
    {pool : List ℕ} {K : ℕ}
    (hsamp : ∀ k, k ≤ pool.length → ∀ x ∈ samp pool k, x ∈ pool)
    (hshuf : ∀ l : List ℕ, (shuf l).Perm l) :
    ∀ x ∈ pkPick samp shuf pool K, x ∈ pool := by
  unfold pkPick
  split
  · next h => exact hsamp K h
  · next h =>
    intro x hx
    have h1 := (hshuf _).mem_iff.mp hx
    have h2 := List.mem_of_mem_take h1
    obtain ⟨l, hl, hxl⟩ := List.mem_flatten.mp h2
    rw [List.eq_of_mem_replicate hl] at hxl
    exact hxl

/-- A pick from a pool with at least `K` distinct entries is drawn without
replacement. -/
theorem pkPick_nodup {samp : List ℕ → ℕ → List ℕ} {shuf : List ℕ → List ℕ}
    {pool : List ℕ} {K : ℕ} (hK : K ≤ pool.length) (hpool : pool.Nodup)
    (hsamp : ∀ k, k ≤ pool.length → pool.Nodup → (samp pool k).Nodup) :
    (pkPick samp shuf pool K).Nodup := by
  unfold pkPick
  rw [if_pos hK]
  exact hsamp K hK hpool

theorem sum_map_eq_of_single (K : ℕ) (g : String) : ∀ (G : List String), G.Nodup →
    g ∈ G → ∀ f : String → ℕ, f g = K → (∀ g' ∈ G, g' ≠ g → f g' = 0) →
    (G.map f).sum = K := by
  intro G
  induction G with
  | nil => intro _ hg; cases hg
  | cons a G ih =>
    intro hnd hg f hfg hf0
    rcases List.mem_cons.mp hg with hg | hg
    · subst hg
      rw [List.map_cons, List.sum_cons, hfg]
      have hz : (G.map f).sum = 0 := by
        apply List.sum_eq_zero
        intro x hx
        obtain ⟨g', hg', hx'⟩ := List.mem_map.mp hx
        have : g' ≠ g := fun hc => (List.nodup_cons.mp hnd).1 (hc ▸ hg')
        rw [← hx']
        exact hf0 g' (List.mem_cons_of_mem _ hg') this
      omega
    · rw [List.map_cons, List.sum_cons]
      have ha : a ≠ g := fun hc => (List.nodup_cons.mp hnd).1 (hc ▸ hg)
      rw [hf0 a (List.mem_cons_self _ _) ha]
      rw [ih (List.nodup_cons.mp hnd).2 hg f hfg
        (fun g' hg' => hf0 g' (List.mem_cons_of_mem _ hg'))]
      omega

/-- C5: the PK sampler contract. With `ids` a shuffle of the identity
keys, `samp` satisfying the `random.sample` contract and `shuf` a
permutation: the epoch yields `ceil(identity_count / P)` batches; every
batch except possibly the final one has size `P*K`; and in each batch
every identity of its group contributes exactly `K` indices (its picks
drawn from its own pool, without replacement when the pool has at least
`K` entries). -/
theorem pkSampler_contract (labels : List String) (P K : ℕ) (ids : List String)
    (samp : List ℕ → ℕ → List ℕ) (shuf : List ℕ → List ℕ)
    (hP : 0 < P) (hids : ids.Perm (identitiesOf labels))
    (hsampLen : ∀ pool k, k ≤ List.length pool → (samp pool k).length = k)
    (hsampMem : ∀ pool k, k ≤ List.length pool → ∀ x ∈ samp pool k, x ∈ pool)
    (hsampNodup : ∀ pool k, k ≤ List.length pool → pool.Nodup → (samp pool k).Nodup)
    (hshuf : ∀ l : List ℕ, (shuf l).Perm l) :
    (pkBatches labels P K ids samp shuf).length = pkLen labels P ∧
    (∀ b ∈ (pkBatches labels P K ids samp shuf).dropLast, b.length = P * K) ∧
    (∀ bi (hbi : bi < (chunksOf P ids).length) (g : String),
      g ∈ (chunksOf P ids).get ⟨bi, hbi⟩ →
      ((pkBatches labels P K ids samp shuf).getD bi []).countP
          (fun idx => decide (labels.getD idx "" = g)) = K ∧
      (K ≤ (poolOf labels g).length → (pkPick samp shuf (poolOf labels g) K).Nodup) ∧
      (∀ x ∈ pkPick samp shuf (poolOf labels g) K, x ∈ poolOf labels g)) := by
  have hpool_ne : ∀ g ∈ ids, poolOf labels g ≠ [] := by
    intro g hg
    exact poolOf_ne_nil (mem_identitiesOf.mp (hids.mem_iff.mp hg))
  have hids_nodup : ids.Nodup := hids.nodup_iff.mpr (identitiesOf_nodup labels)
  refine ⟨?_, ?_, ?_⟩
  · rw [pkBatches, List.length_map, chunksOf_length P hP, pkLen, hids.length_eq]
  · intro b hb
    rw [pkBatches, ← List.map_dropLast] at hb
    obtain ⟨G, hG, hGb⟩ := List.mem_map.mp hb
    have hGP : G.length = P := chunksOf_dropLast_length P ids G hG
    have hGsub : G.Sublist ids :=
      chunksOf_sublist P ids G (List.dropLast_sublist _ |>.mem hG)
    rw [← hGb, List.length_flatten]
    have hmap : G.map (fun g => (pkPick samp shuf (poolOf labels g) K).length)
        = G.map (fun _ => K) := by
      apply List.map_congr_left
      intro g hg
      exact pkPick_length (hpool_ne g (hGsub.mem hg)) (hsampLen _) hshuf
    rw [List.map_map]
    have : (List.length ∘ fun g => pkPick samp shuf (poolOf labels g) K)
        = fun g => (pkPick samp shuf (poolOf labels g) K).length := rfl
    rw [this, hmap]
    simp [hGP, Nat.mul_comm]
  · intro bi hbi g hg
    set G := (chunksOf P ids).get ⟨bi, hbi⟩ with hGdef
    have hGsub : G.Sublist ids := chunksOf_sublist P ids G (by rw [hGdef]; exact List.get_mem _ _ _)
    have hGnodup : G.Nodup := hGsub.nodup hids_nodup
    have hgid : g ∈ ids := hGsub.mem hg
    have hbatch : (pkBatches labels P K ids samp shuf).getD bi []
        = (G.map (fun g' => pkPick samp shuf (poolOf labels g') K)).flatten := by
      rw [pkBatches, List.getD_eq_getElem _ _ (by simpa using hbi), List.getElem_map]
      rfl
    refine ⟨?_, fun hK => pkPick_nodup hK (poolOf_nodup labels g) (hsampNodup _),
      pkPick_mem (hsampMem _) hshuf⟩
    rw [hbatch, List.countP_flatten, List.map_map]
    apply sum_map_eq_of_single K g G hGnodup hg
    · -- the pick of g itself: all of its entries carry label g
      have hlen : (pkPick samp shuf (poolOf labels g) K).length = K :=
        pkPick_length (hpool_ne g hgid) (hsampLen _) hshuf
      simp only [Function.comp]
      rw [List.countP_eq_length.mpr, hlen]
      intro x hx
      have hxp := pkPick_mem (hsampMem _) hshuf x hx
      simp only [decide_eq_true_eq]
      exact (mem_poolOf.mp hxp).2
    · -- picks of the other group members contribute no index labelled g
      intro g' hg' hne
      simp only [Function.comp]
      rw [List.countP_eq_zero.mpr]
      intro x hx
      have hxp := pkPick_mem (hsampMem _) hshuf x hx
      simp only [decide_eq_true_eq]
      rw [(mem_poolOf.mp hxp).2]
      exact hne

/-- Witness for `pkSampler_contract`: labels `[u, u, v, v, w]` with
`P = 2`, `K = 2`, `random.sample` realised as `take` and the shuffles as
identities; the sampler yields `ceil(3/2) = 2` batches. -/
theorem pkSampler_contract_witness :
    (pkBatches ["u", "u", "v", "v", "w"] 2 2 (identitiesOf ["u", "u", "v", "v", "w"])
      (fun pool k => pool.take k) id).length = 2 ∧
    pkLen ["u", "u", "v", "v", "w"] 2 = 2 := by
  have h := (pkSampler_contract ["u", "u", "v", "v", "w"] 2 2
    (identitiesOf ["u", "u", "v", "v", "w"]) (fun pool k => pool.take k) id
    (by omega) (List.Perm.refl _)
    (fun pool k hk => by rw [List.length_take]; omega)
    (fun pool k hk x hx => List.mem_of_mem_take hx)
    (fun pool k hk hnd => (List.take_sublist _ _).nodup hnd)
    (fun l => List.Perm.refl _)).1
  rw [h]
  constructor <;> decide

/-! ## Identity-disjoint split by users (runner.py lines 179-202)

`per_user` is built by the same append-in-enumeration-order loop as the
sampler's `label_to_indices`, so `identitiesOf`/`poolOf` are reused.
`random.shuffle(users)` enters as the parameter `shuffled`;
`int(nu * ratio)` truncates the product toward zero, which for the
nonnegative configured ratios is the floor. -/

/-- `train_users` and `val_users`: the first `int(nu*train_ratio)`
shuffled users, and the next `int(nu*val_ratio)` ones
(`users[n_train : n_train + n_val]`). -/
def splitUsersOf (shuffled : List String) (trainFrac valFrac : ℚ) :
    List String × List String :=
  ((shuffled.take (⌊(shuffled.length : ℚ) * trainFrac⌋.toNat)),
   ((shuffled.drop (⌊(shuffled.length : ℚ) * trainFrac⌋.toNat)).take
     (⌊(shuffled.length : ℚ) * valFrac⌋.toNat)))

/-- The three index lists produced by the split loop. -/
structure Split where
  trainIdx : List ℕ
  valIdx : List ℕ
  testIdx : List ℕ

/-- The split loop (runner.py lines 196-202): for each user in dict order,
append all of its sample indices to the train list when the user is a
train user, else to the val list when it is a val user, else to the test
list. -/
def userSplit (userCodes shuffled : List String) (trainFrac valFrac : ℚ) : Split :=
  (identitiesOf userCodes).foldl
    (fun acc uc =>
      if uc ∈ (splitUsersOf shuffled trainFrac valFrac).1 then
        { acc with trainIdx := acc.trainIdx ++ poolOf userCodes uc }
      else if uc ∈ (splitUsersOf shuffled trainFrac valFrac).2 then
        { acc with valIdx := acc.valIdx ++ poolOf userCodes uc }
      else
        { acc with testIdx := acc.testIdx ++ poolOf userCodes uc })
    ⟨[], [], []⟩

theorem userSplit_fold_spec (userCodes shuffled : List String)
    (trainFrac valFrac : ℚ) : ∀ (l : List String) (acc : Split),
    (l.foldl
      (fun acc uc =>
        if uc ∈ (splitUsersOf shuffled trainFrac valFrac).1 then
          { acc with trainIdx := acc.trainIdx ++ poolOf userCodes uc }
        else if uc ∈ (splitUsersOf shuffled trainFrac valFrac).2 then
          { acc with valIdx := acc.valIdx ++ poolOf userCodes uc }
        else
          { acc with testIdx := acc.testIdx ++ poolOf userCodes uc })
      acc).trainIdx
      = acc.trainIdx ++ (l.filter
          (fun uc => decide (uc ∈ (splitUsersOf shuffled trainFrac valFrac).1))).flatMap
          (poolOf userCodes) ∧
    (l.foldl
      (fun acc uc =>
        if uc ∈ (splitUsersOf shuffled trainFrac valFrac).1 then
          { acc with trainIdx := acc.trainIdx ++ poolOf userCodes uc }
        else if uc ∈ (splitUsersOf shuffled trainFrac valFrac).2 then
          { acc with valIdx := acc.valIdx ++ poolOf userCodes uc }
        else
          { acc with testIdx := acc.testIdx ++ poolOf userCodes uc })
      acc).valIdx
      = acc.valIdx ++ (l.filter
          (fun uc => decide (uc ∉ (splitUsersOf shuffled trainFrac valFrac).1 ∧
            uc ∈ (splitUsersOf shuffled trainFrac valFrac).2))).flatMap
          (poolOf userCodes) ∧
    (l.foldl
      (fun acc uc =>
        if uc ∈ (splitUsersOf shuffled trainFrac valFrac).1 then
          { acc with trainIdx := acc.trainIdx ++ poolOf userCodes uc }
        else if uc ∈ (splitUsersOf shuffled trainFrac valFrac).2 then
          { acc with valIdx := acc.valIdx ++ poolOf userCodes uc }
        else
          { acc with testIdx := acc.testIdx ++ poolOf userCodes uc })
      acc).testIdx
      = acc.testIdx ++ (l.filter
          (fun uc => decide (uc ∉ (splitUsersOf shuffled trainFrac valFrac).1 ∧
            uc ∉ (splitUsersOf shuffled trainFrac valFrac).2))).flatMap
          (poolOf userCodes) := by
  intro l
  induction l with
  | nil => intro acc; simp
  | cons uc l ih =>
    intro acc
    simp only [List.foldl_cons, List.filter_cons]
    by_cases h1 : uc ∈ (splitUsersOf shuffled trainFrac valFrac).1
    · obtain ⟨iht, ihv, ihs⟩ :=
        ih { acc with trainIdx := acc.trainIdx ++ poolOf userCodes uc }
      rw [if_pos h1]
      refine ⟨?_, ?_, ?_⟩
      · rw [iht]
        simp [h1]
      · rw [ihv]
        simp [h1]
      · rw [ihs]
        simp [h1]
    · rw [if_neg h1]
      by_cases h2 : uc ∈ (splitUsersOf shuffled trainFrac valFrac).2
      · obtain ⟨iht, ihv, ihs⟩ :=
          ih { acc with valIdx := acc.valIdx ++ poolOf userCodes uc }
        rw [if_pos h2]
        refine ⟨?_, ?_, ?_⟩
        · rw [iht]; simp [h1]
        · rw [ihv]; simp [h1, h2]
        · rw [ihs]; simp [h1, h2]
      · obtain ⟨iht, ihv, ihs⟩ :=
          ih { acc with testIdx := acc.testIdx ++ poolOf userCodes uc }
        rw [if_neg h2]
        refine ⟨?_, ?_, ?_⟩
        · rw [iht]; simp [h1]
        · rw [ihv]; simp [h1, h2]
        · rw [ihs]; simp [h1, h2]

/-- Membership in each split list is decided exactly by the split class of
the sample's own user. -/
theorem userSplit_mem (userCodes shuffled : List String) (trainFrac valFrac : ℚ)
    (idx : ℕ) :
    (idx ∈ (userSplit userCodes shuffled trainFrac valFrac).trainIdx ↔
      idx < userCodes.length ∧
      userCodes.getD idx "" ∈ (splitUsersOf shuffled trainFrac valFrac).1) ∧
    (idx ∈ (userSplit userCodes shuffled trainFrac valFrac).valIdx ↔
      idx < userCodes.length ∧
      userCodes.getD idx "" ∉ (splitUsersOf shuffled trainFrac valFrac).1 ∧
      userCodes.getD idx "" ∈ (splitUsersOf shuffled trainFrac valFrac).2) ∧
    (idx ∈ (userSplit userCodes shuffled trainFrac valFrac).testIdx ↔
      idx < userCodes.length ∧
      userCodes.getD idx "" ∉ (splitUsersOf shuffled trainFrac valFrac).1 ∧
      userCodes.getD idx "" ∉ (splitUsersOf shuffled trainFrac valFrac).2) := by
  obtain ⟨ht, hv, hs⟩ :=
    userSplit_fold_spec userCodes shuffled trainFrac valFrac
      (identitiesOf userCodes) ⟨[], [], []⟩
  have hgen : ∀ (p : String → Prop) (hp : DecidablePred p),
      (idx ∈ ((identitiesOf userCodes).filter (fun uc => decide (p uc))).flatMap
        (poolOf userCodes) ↔ idx < userCodes.length ∧ p (userCodes.getD idx "")) := by
    intro p hp
    constructor
    · intro hmem
      obtain ⟨uc, hucf, hidx⟩ := List.mem_flatMap.mp hmem
      obtain ⟨huc, hpuc⟩ := List.mem_filter.mp hucf
      obtain ⟨hlt, hval⟩ := mem_poolOf.mp hidx
      refine ⟨hlt, ?_⟩
      rw [hval]
      exact of_decide_eq_true hpuc
    · rintro ⟨hlt, hpred⟩
      apply List.mem_flatMap.mpr
      refine ⟨userCodes.getD idx "", ?_, mem_poolOf.mpr ⟨hlt, rfl⟩⟩
      apply List.mem_filter.mpr
      refine ⟨?_, decide_eq_true hpred⟩
      apply mem_identitiesOf.mpr
      rw [List.getD_eq_getElem _ _ hlt]
      exact List.getElem_mem hlt
  unfold userSplit
  refine ⟨?_, ?_, ?_⟩
  · rw [ht, List.nil_append]
    exact hgen (fun uc => uc ∈ (splitUsersOf shuffled trainFrac valFrac).1) inferInstance
  · rw [hv, List.nil_append]
    exact hgen (fun uc => uc ∉ (splitUsersOf shuffled trainFrac valFrac).1 ∧
      uc ∈ (splitUsersOf shuffled trainFrac valFrac).2) inferInstance
  · rw [hs, List.nil_append]
    exact hgen (fun uc => uc ∉ (splitUsersOf shuffled trainFrac valFrac).1 ∧
      uc ∉ (splitUsersOf shuffled trainFrac valFrac).2) inferInstance

/-- C7: when splitting by users, the three index lists partition the full
sample index range, and two samples of the same user always land in the
same split — no identity is spread over two splits. -/
theorem userSplit_partition (userCodes shuffled : List String)
    (trainFrac valFrac : ℚ) :
    (∀ idx, idx < userCodes.length ↔
      (idx ∈ (userSplit userCodes shuffled trainFrac valFrac).trainIdx ∨
       idx ∈ (userSplit userCodes shuffled trainFrac valFrac).valIdx ∨
       idx ∈ (userSplit userCodes shuffled trainFrac valFrac).testIdx)) ∧
    (∀ idx,
      ¬(idx ∈ (userSplit userCodes shuffled trainFrac valFrac).trainIdx ∧
        idx ∈ (userSplit userCodes shuffled trainFrac valFrac).valIdx) ∧
      ¬(idx ∈ (userSplit userCodes shuffled trainFrac valFrac).trainIdx ∧
        idx ∈ (userSplit userCodes shuffled trainFrac valFrac).testIdx) ∧
      ¬(idx ∈ (userSplit userCodes shuffled trainFrac valFrac).valIdx ∧
        idx ∈ (userSplit userCodes shuffled trainFrac valFrac).testIdx)) ∧
    (∀ i j, i < userCodes.length → j < userCodes.length →
      userCodes.getD i "" = userCodes.getD j "" →
      ((i ∈ (userSplit userCodes shuffled trainFrac valFrac).trainIdx ↔
        j ∈ (userSplit userCodes shuffled trainFrac valFrac).trainIdx) ∧
       (i ∈ (userSplit userCodes shuffled trainFrac valFrac).valIdx ↔
        j ∈ (userSplit userCodes shuffled trainFrac valFrac).valIdx) ∧
       (i ∈ (userSplit userCodes shuffled trainFrac valFrac).testIdx ↔
        j ∈ (userSplit userCodes shuffled trainFrac valFrac).testIdx))) := by
  refine ⟨?_, ?_, ?_⟩
  · intro idx
    obtain ⟨ht, hv, hs⟩ := userSplit_mem userCodes shuffled trainFrac valFrac idx
    rw [ht, hv, hs]
    constructor
    · intro hlt
      by_cases h1 : userCodes.getD idx "" ∈ (splitUsersOf shuffled trainFrac valFrac).1
      · exact Or.inl ⟨hlt, h1⟩
      · by_cases h2 : userCodes.getD idx "" ∈ (splitUsersOf shuffled trainFrac valFrac).2
        · exact Or.inr (Or.inl ⟨hlt, h1, h2⟩)
        · exact Or.inr (Or.inr ⟨hlt, h1, h2⟩)
    · rintro (⟨hlt, _⟩ | ⟨hlt, _⟩ | ⟨hlt, _⟩) <;> exact hlt
  · intro idx
    obtain ⟨ht, hv, hs⟩ := userSplit_mem userCodes shuffled trainFrac valFrac idx
    rw [ht, hv, hs]
    exact ⟨fun ⟨⟨_, h1⟩, ⟨_, h1n, _⟩⟩ => h1n h1,
           fun ⟨⟨_, h1⟩, ⟨_, h1n, _⟩⟩ => h1n h1,
           fun ⟨⟨_, _, h2⟩, ⟨_, _, h2n⟩⟩ => h2n h2⟩
  · intro i j hi hj huser
    obtain ⟨hti, hvi, hsi⟩ := userSplit_mem userCodes shuffled trainFrac valFrac i
    obtain ⟨htj, hvj, hsj⟩ := userSplit_mem userCodes shuffled trainFrac valFrac j
    rw [hti, hvi, hsi, htj, hvj, hsj, huser]
    exact ⟨⟨fun h => ⟨hj, h.2⟩, fun h => ⟨hi, h.2⟩⟩,
           ⟨fun h => ⟨hj, h.2⟩, fun h => ⟨hi, h.2⟩⟩,
           ⟨fun h => ⟨hj, h.2⟩, fun h => ⟨hi, h.2⟩⟩⟩

/-- Witness for `userSplit_partition` at a concrete dataset: user codes
`[a, a, b]`, shuffled user list `[b, a]`, ratios `1/2` and `1/4` — the two
samples of user `a` land in the same splits. -/
theorem userSplit_partition_witness :
    (0 ∈ (userSplit ["a", "a", "b"] ["b", "a"] (1/2) (1/4)).trainIdx ↔
     1 ∈ (userSplit ["a", "a", "b"] ["b", "a"] (1/2) (1/4)).trainIdx) :=
  ((userSplit_partition ["a", "a", "b"] ["b", "a"] (1/2) (1/4)).2.2 0 1
    (by decide) (by decide) (by decide)).1

/-! ## Best-checkpoint policy (runner.py lines 704-717)

`improved = best_eer is None or (m["eer"] < best_eer)`; on improvement
`best_eer` is updated and `best.pt` is overwritten with the model /
optimizer / scaler state, the epoch number `epoch + 1` and the new best
EER; otherwise neither the tracker nor the file is touched. The opaque
saved tensor state enters as a type parameter `α`. -/

/-- The contents written to `best.pt`. -/
structure Checkpoint (α : Type) where
  epoch : ℕ
  model : α
  bestEer : ℚ
deriving DecidableEq, Repr

/-- Orchestrator state: the running `best_eer` tracker (`none` before any
improvement) and the stored `best.pt` file (`none` while absent). -/
structure CkptState (α : Type) where
  bestEer : Option ℚ
  stored : Option (Checkpoint α)
deriving DecidableEq, Repr

/-- The end-of-epoch checkpoint step (runner.py lines 704-717); the
returned flag reports whether `best.pt` was (over)written. -/
def checkpointStep {α : Type} (st : CkptState α) (epoch : ℕ) (model : α)
    (eer : ℚ) : CkptState α × Bool :=
  if st.bestEer.isNone || decide (eer < st.bestEer.getD 0) then
    ({ bestEer := some eer, stored := some ⟨epoch + 1, model, eer⟩ }, true)
  else (st, false)

/-- C8: `best.pt` is written in an epoch iff that epoch's validation EER
strictly undercuts the recorded best (or no best exists yet); without an
improvement both the tracker and the stored checkpoint are left
unchanged, and on an improvement the file records the new epoch and
EER. -/
theorem checkpoint_written_iff_improved {α : Type} (st : CkptState α)
    (epoch : ℕ) (model : α) (eer : ℚ) :
    ((checkpointStep st epoch model eer).2 = true ↔
      st.bestEer = none ∨ ∃ b, st.bestEer = some b ∧ eer < b) ∧
    ((checkpointStep st epoch model eer).2 = false →
      (checkpointStep st epoch model eer).1 = st) ∧
    ((checkpointStep st epoch model eer).2 = true →
      (checkpointStep st epoch model eer).1
        = ⟨some eer, some ⟨epoch + 1, model, eer⟩⟩) := by
  unfold checkpointStep
  rcases hbest : st.bestEer with - | b
  · refine ⟨?_, ?_, ?_⟩
    · simp
    · simp
    · intro _
      simp [hbest]
  · simp only [hbest, Option.isNone_some, Bool.false_or, Option.getD_some]
    by_cases hlt : eer < b
    · simp [hlt]
    · simp [hlt]

/-- Witness for `checkpoint_written_iff_improved`: with a recorded best
EER of `1`, an epoch with EER `2` leaves the stored checkpoint
untouched. -/
theorem checkpoint_written_iff_improved_witness :
    (checkpointStep (⟨some 1, some ⟨3, 0, 1⟩⟩ : CkptState ℕ) 7 0 2).1
      = ⟨some 1, some ⟨3, 0, 1⟩⟩ :=
  (checkpoint_written_iff_improved (⟨some 1, some ⟨3, 0, 1⟩⟩ : CkptState ℕ) 7 0 2).2.1
    (by decide)

/-! ## Miner selection schedule (runner.py lines 403-408 and 506-519)

The miner variable is initialised before the epoch loop and, at the top
of every epoch, replaced by a fresh `HardMiner` when the configured
`miner_type` is `semi_hard` or `hard` and `epoch >= hard_miner_epoch`;
`hard_miner_epoch` is fixed to `0`. The replacement precedes the batch
loop (line 547), so the value used for mining in epoch `e` is the value
after the update of epoch `e`. -/

/-- The two miner classes the runner instantiates. -/
inductive MinerKind
  | semiHard
  | hard
deriving DecidableEq, Repr

/-- The initial miner (runner.py lines 403-408). -/
def initialMiner (minerType : String) : MinerKind :=
  if minerType = "semi_hard" then .semiHard else .hard

/-- `hard_miner_epoch = 0` (runner.py line 508). -/
def hardMinerEpoch : ℕ := 0

/-- The per-epoch miner update (runner.py lines 516-517). -/
def minerUpdate (minerType : String) (epoch : ℕ) (current : MinerKind) : MinerKind :=
  if hardMinerEpoch ≤ epoch ∧ (minerType = "semi_hard" ∨ minerType = "hard") then
    .hard
  else current

/-- The miner used in the batch loop of the `k`-th executed epoch (epoch
index `startEpoch + k`). -/
def minerUsed (minerType : String) (startEpoch : ℕ) : ℕ → MinerKind
  | 0 => minerUpdate minerType startEpoch (initialMiner minerType)
  | k + 1 => minerUpdate minerType (startEpoch + k + 1) (minerUsed minerType startEpoch k)

/-- C9: with `hard_miner_epoch = 0`, every executed epoch — including the
very first — mines with `HardMiner` whenever `miner_type` is `semi_hard`
or `hard`; the `SemiHardMiner` instantiated for a `semi_hard`
configuration is replaced before any batch is mined and is never used. -/
theorem hard_miner_always_used (minerType : String) (startEpoch k : ℕ)
    (h : minerType = "semi_hard" ∨ minerType = "hard") :
    minerUsed minerType startEpoch k = MinerKind.hard ∧
    minerUsed minerType startEpoch k ≠ MinerKind.semiHard := by
  have hupd : ∀ (e : ℕ) (m : MinerKind), minerUpdate minerType e m = MinerKind.hard := by
    intro e m
    unfold minerUpdate hardMinerEpoch
    rw [if_pos ⟨Nat.zero_le _, h⟩]
  cases k with
  | zero =>
    rw [minerUsed, hupd]
    exact ⟨rfl, by intro hc; cases hc⟩
  | succ k =>
    rw [minerUsed, hupd]
    exact ⟨rfl, by intro hc; cases hc⟩

/-- Witness for `hard_miner_always_used`: a `semi_hard` configuration
mines with `HardMiner` already in the first epoch. -/
theorem hard_miner_always_used_witness :
    minerUsed "semi_hard" 0 0 = MinerKind.hard :=
  (hard_miner_always_used "semi_hard" 0 0 (Or.inl rfl)).1

/-! ## Non-finite-loss handling

Two in-repo training loops handle a non-finite loss differently.
`TrainingRunner.run` (runner.py lines 547-606) guards with
`if not torch.isfinite(loss): non_finite_steps += 1; total_steps += 1;
continue` — counting and skipping the batch with no optimizer step, and
processing the next batch. `engine.train_one_epoch` (engine.py lines
113-121) raises a `RuntimeError` on a non-finite loss before any backward
pass; that module is not called by the runner (and its import of the
absent `compute_eer_auc` fails). Both loops are embedded with the tensor
arithmetic abstracted into a per-batch outcome: the loss computed for the
batch is `none` when non-finite (NaN/Inf) and `some v` when finite. -/

/-- Outcome of the forward/mining/loss computation of one runner batch. -/
inductive BatchOutcome
  | noTriplets
  | lossValue (v : Option ℚ)
deriving DecidableEq, Repr

/-- Running state of the inner epoch loop of `TrainingRunner.run`
(runner.py lines 540-543), plus the number of optimizer steps taken
(`scaler.step(optimizer)` is the only point where parameters change). -/
structure RunnerEpochState where
  totalLoss : ℚ
  seenSamples : ℕ
  nonFiniteSteps : ℕ
  totalSteps : ℕ
  optimizerSteps : ℕ
deriving DecidableEq, Repr

/-- One batch of the runner's inner loop (runner.py lines 547-606): empty
triplets skip the batch; a non-finite loss increments `non_finite_steps`
and skips the batch with no optimizer step (lines 579-583); a finite loss
backpropagates, steps the optimizer and accumulates `loss.item() *
x.size(0)`. -/
def runnerBatchStep (st : RunnerEpochState) (b : BatchOutcome) (batchSize : ℕ) :
    RunnerEpochState :=
  match b with
  | .noTriplets => { st with totalSteps := st.totalSteps + 1 }
  | .lossValue none =>
      { st with
        nonFiniteSteps := st.nonFiniteSteps + 1
        totalSteps := st.totalSteps + 1 }
  | .lossValue (some v) =>
      { st with
        totalLoss := addQ st.totalLoss (mulQ v (batchSize : ℚ))
        seenSamples := st.seenSamples + batchSize
        optimizerSteps := st.optimizerSteps + 1
        totalSteps := st.totalSteps + 1 }

/-- The runner's epoch loop over its batches: a total function — no batch
outcome makes it raise. -/
def runnerEpochLoop (st : RunnerEpochState) :
    List (BatchOutcome × ℕ) → RunnerEpochState
  | [] => st
  | (b, bs) :: rest => runnerEpochLoop (runnerBatchStep st b bs) rest

/-- Per-batch outcome for `engine.train_one_epoch`, abstracting the
tensor arithmetic of engine.py lines 69-121. -/
inductive EngineBatchOutcome
  | nanEmbeddings
  | emptyTriplets
  | nanDistances
  | lossValue (v : Option ℚ)
  | outOfMemory
deriving DecidableEq, Repr

/-- The skip counters of `engine.train_one_epoch` plus the optimizer-step
count (modelled with `grad_accum_steps = 1`). -/
structure EngineEpochState where
  nanEmbeddings : ℕ
  emptyTriplets : ℕ
  nanDistances : ℕ
  nanLosses : ℕ
  oomErrors : ℕ
  validBatches : ℕ
  optimizerSteps : ℕ
deriving DecidableEq, Repr

/-- One batch of `engine.train_one_epoch` (engine.py lines 69-198):
NaN embeddings, empty triplets and NaN distances are logged, counted and
skipped; a non-finite loss value and an out-of-memory error are counted
and then raised as `RuntimeError` — before any backward pass, so with no
parameter update. The error carries the state at the moment of the
raise. -/
def engineBatchStep (st : EngineEpochState) (b : EngineBatchOutcome) :
    Except (String × EngineEpochState) EngineEpochState :=
  match b with
  | .nanEmbeddings => .ok { st with nanEmbeddings := st.nanEmbeddings + 1 }
  | .emptyTriplets => .ok { st with emptyTriplets := st.emptyTriplets + 1 }
  | .nanDistances => .ok { st with nanDistances := st.nanDistances + 1 }
  | .lossValue none =>
      .error ("Invalid loss value. Training stopped.",
        { st with nanLosses := st.nanLosses + 1 })
  | .lossValue (some _) =>
      .ok { st with
        validBatches := st.validBatches + 1
        optimizerSteps := st.optimizerSteps + 1 }
  | .outOfMemory =>
      .error ("CUDA OOM. Training stopped.",
        { st with oomErrors := st.oomErrors + 1 })

/-- The engine's epoch loop: the first raising batch aborts the epoch. -/
def engineEpochLoop (st : EngineEpochState) :
    List EngineBatchOutcome → Except (String × EngineEpochState) EngineEpochState
  | [] => .ok st
  | b :: rest =>
    match engineBatchStep st b with
    | .ok st' => engineEpochLoop st' rest
    | .error e => .error e

/-- C2 counterexample: in `TrainingRunner.run`'s epoch loop a batch with a
non-finite loss does not terminate the run. Starting from the zero state,
a non-finite-loss batch followed by a finite-loss batch of size `4` ends
in a normal final state: the non-finite batch was counted
(`nonFiniteSteps = 1`) and skipped with no optimizer step, and the
following batch was still processed (`totalSteps = 2`,
`optimizerSteps = 1`) — the loop log-and-skips instead of raising. -/
theorem runner_continues_after_non_finite_loss :
    runnerEpochLoop ⟨0, 0, 0, 0, 0⟩
      [(BatchOutcome.lossValue none, 4), (BatchOutcome.lossValue (some 2), 4)]
      = ⟨8, 4, 1, 2, 1⟩ := by
  decide

/-- C2 (amended): the two loss-guard policies. In the runner's loop a
non-finite loss only increments the skip counters — parameters are not
updated for that batch, nothing is raised, and the loop continues with
the remaining batches. In `engine.train_one_epoch` (unused by the
runner) a non-finite loss raises immediately, aborting the epoch with no
optimizer step for that batch. -/
theorem non_finite_loss_policy (st : RunnerEpochState) (bs : ℕ)
    (rest : List (BatchOutcome × ℕ)) (est : EngineEpochState)
    (erest : List EngineBatchOutcome) :
    runnerBatchStep st (BatchOutcome.lossValue none) bs
      = { st with
          nonFiniteSteps := st.nonFiniteSteps + 1
          totalSteps := st.totalSteps + 1 } ∧
    (runnerBatchStep st (BatchOutcome.lossValue none) bs).optimizerSteps
      = st.optimizerSteps ∧
    runnerEpochLoop st ((BatchOutcome.lossValue none, bs) :: rest)
      = runnerEpochLoop
          { st with
            nonFiniteSteps := st.nonFiniteSteps + 1
            totalSteps := st.totalSteps + 1 } rest ∧
    engineEpochLoop est (EngineBatchOutcome.lossValue none :: erest)
      = Except.error ("Invalid loss value. Training stopped.",
          { est with nanLosses := est.nanLosses + 1 }) ∧
    (est.nanLosses + 1, est.optimizerSteps)
      = ({ est with nanLosses := est.nanLosses + 1 }.nanLosses,
         { est with nanLosses := est.nanLosses + 1 }.optimizerSteps) := by
  refine ⟨rfl, rfl, rfl, ?_, rfl⟩
  rw [engineEpochLoop, engineBatchStep]

/-! ## EER / ROC metrics (src/colab-training/src/training/metrics.py)

`compute_eer` delegates to `sklearn.metrics.roc_curve`; the embedding
follows scikit-learn's `_binary_clf_curve` and `roc_curve`: stable
descending sort of the scores, cumulative true/false positive counts at
the distinct-score thresholds, removal of collinear intermediate points
(`drop_intermediate`), a prepended `(0, 0)` point with threshold `+inf`
(modelled as `none`), and all-NaN rate arrays (each entry `none`) when a
class is absent. `np.nanargmin` on an all-NaN array raises `ValueError:
All-NaN slice encountered`; raising is modelled with `Except`. Floats are
modelled as exact rationals. -/

/-- Division on ℚ, written so that the kernel can evaluate it. -/
def divQ (a b : ℚ) : ℚ := Rat.divInt (a.num * b.den) (a.den * b.num)

theorem divQ_eq (a b : ℚ) : divQ a b = a / b := by
  unfold divQ
  by_cases hb : b = 0
  · subst hb
    simp [Rat.divInt]
  · rw [Rat.div_def, Rat.inv_def]
    conv_rhs => rw [← Rat.divInt_self a]
    rw [Rat.divInt_mul_divInt _ _ (Int.natCast_ne_zero.mpr a.den_nz)
      (Rat.num_ne_zero.mpr hb)]

/-- Summation on ℚ via the executable addition. -/
def sumQ (l : List ℚ) : ℚ := l.foldl addQ 0

/-- Stable descending sort of `(score, label)` pairs:
`np.argsort(kind="mergesort")` is a stable ascending sort and the result
is reversed. -/
def sortPairsDesc (pairs : List (ℚ × ℕ)) : List (ℚ × ℕ) :=
  (pairs.insertionSort (fun a b => a.1 ≤ b.1)).reverse

/-- `sklearn.metrics._binary_clf_curve`: cumulative true positives, false
positives and the score thresholds, taken at the last index of each run
of equal scores in descending order. -/
def binaryClfCurve (yTrue : List ℕ) (yScore : List ℚ) :
    List ℕ × List ℕ × List ℚ :=
  let sorted := sortPairsDesc (yScore.zip yTrue)
  let n := sorted.length
  let thresholdIdxs := (List.range n).filter
    (fun k => decide (k = n - 1) ||
      decide ((sorted.getD k (0, 0)).1 ≠ (sorted.getD (k + 1) (0, 0)).1))
  let tps := thresholdIdxs.map (fun k => ((sorted.take (k + 1)).map (fun p => p.2)).sum)
  let fps := (thresholdIdxs.zip tps).map (fun p => p.1 + 1 - p.2)
  let thresholds := thresholdIdxs.map (fun k => (sorted.getD k (0, 0)).1)
  (fps, tps, thresholds)

/-- `np.diff(x, 2)`: second differences. -/
def diff2 (l : List ℕ) : List ℤ :=
  ((l.zip (l.drop 1)).zip (l.drop 2)).map
    (fun p => (p.2 : ℤ) - 2 * (p.1.2 : ℤ) + (p.1.1 : ℤ))

/-- Boolean-mask selection, `x[mask]` for a mask of the same length. -/
def maskKeep {α : Type} (mask : List Bool) (l : List α) : List α :=
  (l.zip mask).filterMap (fun p => if p.2 then some p.1 else none)

/-- The `drop_intermediate` keep-mask of `roc_curve`: the first and last
points are always kept, an interior point only when one of the second
differences of `fps` or `tps` is nonzero there. -/
def clfKeepMask (fps0 tps0 : List ℕ) : List Bool :=
  if 2 < fps0.length then
    [true] ++ ((diff2 fps0).zip (diff2 tps0)).map
      (fun p => decide (p.1 ≠ 0) || decide (p.2 ≠ 0)) ++ [true]
  else List.replicate fps0.length true

/-- The false-positive counts of `roc_curve` after `drop_intermediate`,
with the prepended `(0, 0)` point. -/
def rocFps (yTrue : List ℕ) (yScore : List ℚ) : List ℕ :=
  0 :: maskKeep
    (clfKeepMask (binaryClfCurve yTrue yScore).1 (binaryClfCurve yTrue yScore).2.1)
    (binaryClfCurve yTrue yScore).1

/-- The true-positive counts of `roc_curve` after `drop_intermediate`,
with the prepended `(0, 0)` point. -/
def rocTps (yTrue : List ℕ) (yScore : List ℚ) : List ℕ :=
  0 :: maskKeep
    (clfKeepMask (binaryClfCurve yTrue yScore).1 (binaryClfCurve yTrue yScore).2.1)
    (binaryClfCurve yTrue yScore).2.1

/-- The thresholds of `roc_curve`, prepended with `+inf` (`none`). -/
def rocThresholds (yTrue : List ℕ) (yScore : List ℚ) : List (Option ℚ) :=
  (none : Option ℚ) :: ((maskKeep
    (clfKeepMask (binaryClfCurve yTrue yScore).1 (binaryClfCurve yTrue yScore).2.1)
    (binaryClfCurve yTrue yScore).2.2).map some)

/-- The false-positive rate: all-NaN (`none`) when `fps[-1] <= 0` (no
negative sample present), else `fps / fps[-1]`. -/
def rocFpr (yTrue : List ℕ) (yScore : List ℚ) : List (Option ℚ) :=
  if (rocFps yTrue yScore).getLastD 0 = 0 then
    (rocFps yTrue yScore).map (fun _ => (none : Option ℚ))
  else
    (rocFps yTrue yScore).map
      (fun v => some (divQ (v : ℚ) (((rocFps yTrue yScore).getLastD 0 : ℕ) : ℚ)))

/-- The true-positive rate: all-NaN (`none`) when `tps[-1] <= 0` (no
positive sample present), else `tps / tps[-1]`. -/
def rocTpr (yTrue : List ℕ) (yScore : List ℚ) : List (Option ℚ) :=
  if (rocTps yTrue yScore).getLastD 0 = 0 then
    (rocTps yTrue yScore).map (fun _ => (none : Option ℚ))
  else
    (rocTps yTrue yScore).map
      (fun v => some (divQ (v : ℚ) (((rocTps yTrue yScore).getLastD 0 : ℕ) : ℚ)))

/-- `sklearn.metrics.roc_curve` with its default `drop_intermediate`:
`(fpr, tpr, thresholds)`. -/
def rocCurve (yTrue : List ℕ) (yScore : List ℚ) :
    List (Option ℚ) × List (Option ℚ) × List (Option ℚ) :=
  (rocFpr yTrue yScore, rocTpr yTrue yScore, rocThresholds yTrue yScore)

/-- `np.nanargmin` ignoring `none` entries (first occurrence of the
minimum); `none` when every entry is NaN or the array is empty, the two
cases in which numpy raises. -/
def nanargminAux : ℕ → Option (ℕ × ℚ) → List (Option ℚ) → Option ℕ
  | _, best, [] => best.map (fun p => p.1)
  | i, best, none :: rest => nanargminAux (i + 1) best rest
  | i, none, some x :: rest => nanargminAux (i + 1) (some (i, x)) rest
  | i, some (bi, bv), some x :: rest =>
    if x < bv then nanargminAux (i + 1) (some (i, x)) rest
    else nanargminAux (i + 1) (some (bi, bv)) rest

/-- `np.nanargmin` over an option-valued array. -/
def nanargmin (l : List (Option ℚ)) : Option ℕ := nanargminAux 0 none l

/-- `compute_eer` (metrics.py lines 9-16): ROC curve, `fnr = 1 - tpr`,
index minimising `|fnr - fpr|`, EER as the mean of `fnr` and `fpr` there,
and the threshold at that index (`none` = `+inf`). -/
def eerFnr (yTrue : List ℕ) (yScore : List ℚ) : List (Option ℚ) :=
  (rocTpr yTrue yScore).map (Option.map (fun t => subQ 1 t))

/-- The array `np.abs(fnr - fpr)` minimised by `compute_eer`; an entry is
NaN (`none`) when either rate is NaN. -/
def eerDiffs (yTrue : List ℕ) (yScore : List ℚ) : List (Option ℚ) :=
  ((eerFnr yTrue yScore).zip (rocFpr yTrue yScore)).map (fun p =>
    match p.1, p.2 with
    | some a, some b => some (absQ (subQ a b))
    | _, _ => none)

def compute_eer (yTrue : List ℕ) (yScore : List ℚ) :
    Except String (ℚ × Option ℚ) :=
  match nanargmin (eerDiffs yTrue yScore) with
  | none => .error "All-NaN slice encountered"
  | some idx =>
    .ok (divQ (addQ (((eerFnr yTrue yScore).getD idx none).getD 0)
        (((rocFpr yTrue yScore).getD idx none).getD 0)) 2,
      (rocThresholds yTrue yScore).getD idx none)

/-- `np.trapz(y, x)`: the trapezoidal rule. -/
def npTrapz (y x : List ℚ) : ℚ :=
  sumQ (((x.zip (x.drop 1)).zip (y.zip (y.drop 1))).map
    (fun p => divQ (mulQ (subQ p.1.2 p.1.1) (addQ p.2.1 p.2.2)) 2))

/-- `sklearn.metrics.auc`: trapezoidal area with a direction check —
raises when `x` is neither monotonically increasing nor decreasing. -/
def aucArea (x y : List ℚ) : Except String ℚ :=
  if (x.zip (x.drop 1)).all (fun p => decide (p.1 ≤ p.2)) then .ok (npTrapz y x)
  else if (x.zip (x.drop 1)).all (fun p => decide (p.2 ≤ p.1)) then
    .ok (-(npTrapz y x))
  else .error "x is neither increasing nor decreasing"

/-- `sklearn.metrics.roc_auc_score` on binary 0/1 labels: raises when only
one class is present, otherwise the area under the ROC curve (on the
two-class path the rates are all finite, so the `none` defaults are never
read). -/
def roc_auc_score (yTrue : List ℕ) (yScore : List ℚ) : Except String ℚ :=
  if 1 ∈ yTrue ∧ 0 ∈ yTrue then
    let r := rocCurve yTrue yScore
    aucArea (r.1.map (fun v => v.getD 0)) (r.2.1.map (fun v => v.getD 0))
  else .error "Only one class present in y_true"

/-- The record returned by `compute_metrics`. -/
structure Metrics where
  eer : ℚ
  eerThr : Option ℚ
  rocAuc : Option ℚ
  rocAucCurve : ℚ
  acc : ℚ
deriving DecidableEq, Repr

/-- `compute_metrics` (metrics.py lines 19-36): `compute_eer` first — its
exception propagates uncaught; `roc_auc_score` inside `try/except`
(`none` models the `float('nan')` fallback); the curve AUC; and the
accuracy of thresholding at the EER threshold (`y_score >= thr` is false
for every finite score when the threshold is `+inf`). -/
def compute_metrics (yTrue : List ℕ) (yScore : List ℚ) : Except String Metrics := do
  let (eer, thr) ← compute_eer yTrue yScore
  let rocAuc : Option ℚ :=
    match roc_auc_score yTrue yScore with
    | .ok v => some v
    | .error _ => none
  let r := rocCurve yTrue yScore
  let rocAucCurve ← aucArea (r.1.map (fun v => v.getD 0)) (r.2.1.map (fun v => v.getD 0))
  let yPred := yScore.map (fun s =>
    match thr with
    | none => 0
    | some t => if t ≤ s then 1 else 0)
  let acc := divQ (((yTrue.zip yPred).countP (fun p => decide (p.1 = p.2)) : ℕ) : ℚ)
    ((yTrue.length : ℕ) : ℚ)
  .ok ⟨eer, thr, rocAuc, rocAucCurve, acc⟩

/-- The unordered pair enumeration of `compute_verification_metrics`
(metrics.py lines 62-63): `(i, j)` for `i in range(N)`, `j in
range(i+1, N)`. -/
def verificationPairs (N : ℕ) : List (ℕ × ℕ) :=
  (List.range N).flatMap
    (fun i => (List.range' (i + 1) (N - (i + 1))).map (fun j => (i, j)))

/-- `np.dot` of two equal-length vectors. -/
def dotQ (a b : List ℚ) : ℚ := sumQ ((a.zip b).map (fun p => mulQ p.1 p.2))

/-- The pair scores (metrics.py line 64): cosine similarity as the dot
product of the (L2-normalised) embeddings. -/
def pairScores (embs : List (List ℚ)) : List ℚ :=
  (verificationPairs embs.length).map
    (fun p => dotQ (embs.getD p.1 []) (embs.getD p.2 []))

/-- The pair labels (metrics.py line 67): a pair is positive iff both
samples carry label `1` (genuine); the writers of the two samples play no
role — the function never sees user codes. -/
def pairLabels (labels : List ℤ) (N : ℕ) : List ℕ :=
  (verificationPairs N).map
    (fun p => if labels.getD p.1 0 = 1 ∧ labels.getD p.2 0 = 1 then 1 else 0)

/-- `compute_verification_metrics` (metrics.py lines 39-72): all-pairs
scores and labels fed to `compute_metrics`. -/
def compute_verification_metrics (embs : List (List ℚ)) (labels : List ℤ) :
    Except String Metrics :=
  compute_metrics (pairLabels labels embs.length) (pairScores embs)

theorem mem_maskKeep {α : Type} {mask : List Bool} {l : List α} {x : α}
    (h : x ∈ maskKeep mask l) : x ∈ l := by
  obtain ⟨p, hp, hx⟩ := List.mem_filterMap.mp h
  by_cases hb : p.2 = true
  · rw [if_pos hb] at hx
    injection hx with hx
    exact hx ▸ (List.of_mem_zip hp).1
  · rw [if_neg hb] at hx
    cases hx

theorem all_zero_getLastD : ∀ (l : List ℕ) (d : ℕ), (∀ x ∈ l, x = 0) → d = 0 →
    l.getLastD d = 0 := by
  intro l
  induction l with
  | nil => intro d _ hd; exact hd
  | cons a l ih =>
    intro d h _
    rw [List.getLastD_cons]
    exact ih a (fun x hx => h x (List.mem_cons_of_mem _ hx))
      (h a (List.mem_cons_self _ _))

theorem mem_zip_map_self {α β : Type} {l : List α} {f : α → β} {p : α × β}
    (h : p ∈ l.zip (l.map f)) : p.1 ∈ l ∧ p.2 = f p.1 := by
  induction l with
  | nil => cases h
  | cons a l ih =>
    rw [List.map_cons, List.zip_cons_cons] at h
    rcases List.mem_cons.mp h with h | h
    · subst h
      exact ⟨List.mem_cons_self _ _, rfl⟩
    · obtain ⟨h1, h2⟩ := ih h
      exact ⟨List.mem_cons_of_mem _ h1, h2⟩

/-- Every label of the descending-sorted pair list is a label of the
input. -/
theorem sortPairsDesc_label_mem {yTrue : List ℕ} {yScore : List ℚ}
    {q : ℚ × ℕ} (h : q ∈ sortPairsDesc (yScore.zip yTrue)) : q.2 ∈ yTrue := by
  unfold sortPairsDesc at h
  rw [List.mem_reverse] at h
  have hperm := List.perm_insertionSort (fun a b : ℚ × ℕ => a.1 ≤ b.1) (yScore.zip yTrue)
  exact (List.of_mem_zip (hperm.mem_iff.mp h)).2

/-- With only genuine labels (`1`) every false-positive count of
`_binary_clf_curve` is zero. -/
theorem binaryClfCurve_fps_all_zero (yTrue : List ℕ) (yScore : List ℚ)
    (h1 : ∀ l ∈ yTrue, l = 1) :
    ∀ x ∈ (binaryClfCurve yTrue yScore).1, x = 0 := by
  intro x hx
  unfold binaryClfCurve at hx
  simp only at hx
  obtain ⟨p, hp, hxp⟩ := List.mem_map.mp hx
  obtain ⟨hk, htv⟩ := mem_zip_map_self hp
  have hklt : p.1 < (sortPairsDesc (yScore.zip yTrue)).length := by
    have := List.mem_filter.mp hk
    simpa using List.mem_range.mp this.1
  have htake : ((sortPairsDesc (yScore.zip yTrue)).take (p.1 + 1)).length = p.1 + 1 := by
    rw [List.length_take]
    omega
  have hones : ∀ q ∈ (sortPairsDesc (yScore.zip yTrue)).take (p.1 + 1), q.2 = 1 := by
    intro q hq
    exact h1 _ (sortPairsDesc_label_mem (List.mem_of_mem_take hq))
  have hsum : (((sortPairsDesc (yScore.zip yTrue)).take (p.1 + 1)).map
      (fun p => p.2)).sum = p.1 + 1 := by
    have hrep : ((sortPairsDesc (yScore.zip yTrue)).take (p.1 + 1)).map (fun p => p.2)
        = List.replicate (p.1 + 1) 1 := by
      have hmaplen : (((sortPairsDesc (yScore.zip yTrue)).take (p.1 + 1)).map
          (fun p => p.2)).length = p.1 + 1 := by
        rw [List.length_map, htake]
      conv_rhs => rw [← hmaplen]
      apply List.eq_replicate_of_mem
      intro b hb
      obtain ⟨q, hq, hqb⟩ := List.mem_map.mp hb
      rw [← hqb]
      exact hones q hq
    rw [hrep, List.sum_replicate, smul_eq_mul, Nat.mul_one]
  rw [← hxp, htv, hsum]
  omega

/-- With only impostor labels (`0`) every true-positive count of
`_binary_clf_curve` is zero. -/
theorem binaryClfCurve_tps_all_zero (yTrue : List ℕ) (yScore : List ℚ)
    (h0 : ∀ l ∈ yTrue, l = 0) :
    ∀ x ∈ (binaryClfCurve yTrue yScore).2.1, x = 0 := by
  intro x hx
  unfold binaryClfCurve at hx
  simp only at hx
  obtain ⟨k, hk, hxk⟩ := List.mem_map.mp hx
  rw [← hxk]
  apply List.sum_eq_zero
  intro b hb
  obtain ⟨q, hq, hqb⟩ := List.mem_map.mp hb
  rw [← hqb]
  exact h0 _ (sortPairsDesc_label_mem (List.mem_of_mem_take hq))

theorem rocFpr_all_none (yTrue : List ℕ) (yScore : List ℚ)
    (h : ∀ x ∈ (binaryClfCurve yTrue yScore).1, x = 0) :
    ∀ v ∈ rocFpr yTrue yScore, v = none := by
  have hall : ∀ x ∈ rocFps yTrue yScore, x = 0 := by
    intro x hx
    rw [rocFps] at hx
    rcases List.mem_cons.mp hx with hx | hx
    · exact hx
    · exact h x (mem_maskKeep hx)
  have hlast : (rocFps yTrue yScore).getLastD 0 = 0 :=
    all_zero_getLastD _ 0 hall rfl
  intro v hv
  rw [rocFpr, if_pos hlast] at hv
  obtain ⟨_, _, hvv⟩ := List.mem_map.mp hv
  exact hvv.symm

theorem rocTpr_all_none (yTrue : List ℕ) (yScore : List ℚ)
    (h : ∀ x ∈ (binaryClfCurve yTrue yScore).2.1, x = 0) :
    ∀ v ∈ rocTpr yTrue yScore, v = none := by
  have hall : ∀ x ∈ rocTps yTrue yScore, x = 0 := by
    intro x hx
    rw [rocTps] at hx
    rcases List.mem_cons.mp hx with hx | hx
    · exact hx
    · exact h x (mem_maskKeep hx)
  have hlast : (rocTps yTrue yScore).getLastD 0 = 0 :=
    all_zero_getLastD _ 0 hall rfl
  intro v hv
  rw [rocTpr, if_pos hlast] at hv
  obtain ⟨_, _, hvv⟩ := List.mem_map.mp hv
  exact hvv.symm

theorem nanargminAux_all_none : ∀ (l : List (Option ℚ)) (i : ℕ),
    (∀ x ∈ l, x = none) → nanargminAux i none l = none := by
  intro l
  induction l with
  | nil => intro i _; rfl
  | cons x l ih =>
    intro i h
    have hx : x = none := h x (List.mem_cons_self _ _)
    subst hx
    rw [nanargminAux]
    exact ih (i + 1) (fun y hy => h y (List.mem_cons_of_mem _ hy))

theorem nanargmin_all_none (l : List (Option ℚ)) (h : ∀ x ∈ l, x = none) :
    nanargmin l = none :=
  nanargminAux_all_none l 0 h

/-- C4 counterexample: on an all-genuine pair-label array of length two,
`compute_metrics` raises (numpy's `nanargmin` on the all-NaN
`|fnr - fpr|` array) instead of returning the sentinel
`EER = 1.0, AUC = 0.5`. -/
theorem compute_metrics_no_sentinel :
    compute_metrics [1, 1] [3, 5] = .error "All-NaN slice encountered" ∧
    compute_eer [1, 1] [3, 5] = .error "All-NaN slice encountered" :=
  ⟨rfl, rfl⟩

/-- C4 (amended): for every nonempty single-class pair-label array (all
genuine or all impostor) and score array of the same length, the metric
computation raises: the ROC rate of the absent class is an all-NaN array,
`|fnr - fpr|` is all-NaN, and `np.nanargmin` raises `ValueError`, which
`compute_metrics` does not catch; no sentinel is returned. -/
theorem compute_metrics_single_class_raises (yTrue : List ℕ) (yScore : List ℚ)
    (hne : yTrue ≠ []) (hlen : yScore.length = yTrue.length)
    (hsingle : (∀ l ∈ yTrue, l = 1) ∨ (∀ l ∈ yTrue, l = 0)) :
    compute_eer yTrue yScore = .error "All-NaN slice encountered" ∧
    compute_metrics yTrue yScore = .error "All-NaN slice encountered" := by
  have hd : ∀ x ∈ eerDiffs yTrue yScore, x = none := by
    intro x hx
    unfold eerDiffs at hx
    obtain ⟨p, hp, hxp⟩ := List.mem_map.mp hx
    obtain ⟨hpf, hpr⟩ := List.of_mem_zip hp
    rcases hsingle with h1 | h0
    · have hnone : p.2 = none :=
        rocFpr_all_none yTrue yScore (binaryClfCurve_fps_all_zero yTrue yScore h1)
          p.2 hpr
      rw [← hxp, hnone]
      rcases p.1 with - | a <;> rfl
    · have hnone : p.1 = none := by
        unfold eerFnr at hpf
        obtain ⟨t, ht, htp⟩ := List.mem_map.mp hpf
        have : t = none :=
          rocTpr_all_none yTrue yScore (binaryClfCurve_tps_all_zero yTrue yScore h0)
            t ht
        rw [← htp, this]
        rfl
      rw [← hxp, hnone]
  have heer : compute_eer yTrue yScore = .error "All-NaN slice encountered" := by
    unfold compute_eer
    rw [nanargmin_all_none _ hd]
  refine ⟨heer, ?_⟩
  unfold compute_metrics
  rw [heer]
  rfl

/-- Witness for `compute_metrics_single_class_raises` at the all-genuine
array `[1, 1]` with scores `[3, 5]`. -/
theorem compute_metrics_single_class_raises_witness :
    compute_metrics [1, 1] [3, 5] = .error "All-NaN slice encountered" :=
  (compute_metrics_single_class_raises [1, 1] [3, 5] (by decide) (by decide)
    (Or.inl (by decide))).2

theorem list_sum_eq_finset_sum (f : ℕ → ℕ) (N : ℕ) :
    ((List.range N).map f).sum = ∑ i ∈ Finset.range N, f i := by
  induction N with
  | zero => simp
  | succ N ih =>
    rw [List.range_succ, List.map_append, List.sum_append, Finset.sum_range_succ, ih]
    simp

theorem verificationPairs_length (N : ℕ) :
    (verificationPairs N).length = N * (N - 1) / 2 := by
  unfold verificationPairs
  rw [List.length_flatMap]
  have hcongr : (List.range N).map
      (List.length ∘ fun i => (List.range' (i + 1) (N - (i + 1))).map (fun j => (i, j)))
      = (List.range N).map (fun i => N - 1 - i) := by
    apply List.map_congr_left
    intro i hi
    have hiN := List.mem_range.mp hi
    simp only [Function.comp, List.length_map, List.length_range']
    omega
  rw [hcongr, list_sum_eq_finset_sum, Finset.sum_range_reflect (fun i => i) N,
    Finset.sum_range_id]

theorem mem_verificationPairs (N i j : ℕ) :
    (i, j) ∈ verificationPairs N ↔ i < j ∧ j < N := by
  unfold verificationPairs
  rw [List.mem_flatMap]
  constructor
  · rintro ⟨a, ha, hmem⟩
    obtain ⟨j', hj', hpair⟩ := List.mem_map.mp hmem
    injection hpair with h1 h2
    subst h1
    subst h2
    have haN := List.mem_range.mp ha
    have := List.mem_range'_1.mp hj'
    omega
  · rintro ⟨hij, hjN⟩
    refine ⟨i, List.mem_range.mpr (by omega), ?_⟩
    apply List.mem_map.mpr
    refine ⟨j, List.mem_range'_1.mpr (by omega), rfl⟩

/-- C10: the final test metric `compute_verification_metrics` scores the
complete unordered pair enumeration — `N*(N-1)/2` pairs, exactly the
`(i, j)` with `i < j < N` — and a pair's label is `1` exactly when both
samples carry the genuine label `1`; the binary genuine/forged labels are
the only labels consulted, so writer identity plays no role and two
genuine signatures of different writers form a positive pair. -/
theorem compute_verification_metrics_pairs (embs : List (List ℚ)) (labels : List ℤ) :
    compute_verification_metrics embs labels
      = compute_metrics (pairLabels labels embs.length) (pairScores embs) ∧
    (pairLabels labels embs.length).length = embs.length * (embs.length - 1) / 2 ∧
    (∀ i j : ℕ, (i, j) ∈ verificationPairs embs.length ↔ i < j ∧ j < embs.length) ∧
    (∀ k, k < (verificationPairs embs.length).length →
      ((pairLabels labels embs.length).getD k 0 = 1 ↔
        labels.getD ((verificationPairs embs.length).getD k (0, 0)).1 0 = 1 ∧
        labels.getD ((verificationPairs embs.length).getD k (0, 0)).2 0 = 1)) := by
  refine ⟨rfl, ?_, fun i j => mem_verificationPairs embs.length i j, ?_⟩
  · rw [pairLabels, List.length_map, verificationPairs_length]
  · intro k hk
    unfold pairLabels
    rw [List.getD_eq_getElem _ _ (by simpa using hk), List.getElem_map,
      List.getD_eq_getElem _ _ hk]
    by_cases hg : labels.getD (verificationPairs embs.length)[k].1 0 = 1 ∧
        labels.getD (verificationPairs embs.length)[k].2 0 = 1
    · rw [if_pos hg]
      exact iff_of_true rfl hg
    · rw [if_neg hg]
      exact iff_of_false (by omega) hg

/-- Witness for `compute_verification_metrics_pairs`: with three samples,
pair index `1` is the pair `(0, 2)` of the two genuine samples (of
possibly different writers), and its pair label is `1`. -/
theorem compute_verification_metrics_pairs_witness :
    (pairLabels [1, 0, 1] ([[1], [2], [3]] : List (List ℚ)).length).getD 1 0 = 1 :=
  ((compute_verification_metrics_pairs [[1], [2], [3]] [1, 0, 1]).2.2.2 1
    (by decide)).mpr (by decide)

end SigAI
